import Mathlib

/-!
Verification of the confirmation-height processor
(`confirmation_height_processor.cpp` of the nano node).

The C++ code is shallowly embedded: block hashes and accounts are `Nat`
(`0` is the zero/sentinel hash), the store is a pair of lookup functions,
and the worker's traversal is an explicit step function iterated with fuel.
All machine integers in the source are `uint64_t`; heights and counts are
modelled as `Nat`, with an explicit wrap-aware subtraction `u64sub` at the
two places where the source subtracts without a guard.
-/

namespace ConfHeight

/-- Wrap-aware subtraction matching `uint64_t` subtraction `a - b`
for operands below `2 ^ 64`. -/
def u64sub (a b : Nat) : Nat :=
  if b ≤ a then a - b else a + 18446744073709551616 - b

/-- Sentinel used by `collect_unconfirmed_receive_and_sources_for_account`
for a height that is not yet set (`std::numeric_limits<uint64_t>::max ()`). -/
def heightNotSet : Nat := 18446744073709551615

/-- A block as seen by this subsystem: `previous ()`, `source ()`, `link ()`
accessors together with the sideband data the store returns alongside the
block (the owning account and the 1-based height within its chain). -/
structure Block where
  previous : Nat
  source : Nat
  link : Nat
  account : Nat
  height : Nat
  deriving Repr, DecidableEq

/-- The block store, restricted to the operations the processor uses.
`accounts` is the stored `AccountInfo` projected to its only field this
code mutates, `confirmation_height`. `account_get` never fails here
(the source `release_assert`s that it does not). -/
structure Store where
  blocks : Nat → Option Block
  accounts : Nat → Nat

/-- Operation `block_account_height`: sideband height of the block at a hash. -/
def Store.blockAccountHeight (s : Store) (h : Nat) : Nat :=
  (s.blocks h).elim 0 Block.height

/-- Operation `block_account`: owning account of the block at a hash. -/
def Store.blockAccount (s : Store) (h : Nat) : Nat :=
  (s.blocks h).elim 0 Block.account

/-- Operation `source_exists`: a block is stored under the given hash. -/
def Store.sourceExists (s : Store) (h : Nat) : Bool :=
  (s.blocks h).isSome

/-- Operation `account_put`, restricted to the `confirmation_height` field. -/
def Store.putHeight (s : Store) (a : Nat) (h : Nat) : Store :=
  { s with accounts := fun x => if x = a then h else s.accounts x }

@[simp] theorem Store.putHeight_blocks (s : Store) (a h x : Nat) :
    (s.putHeight a h).blocks x = s.blocks x := rfl

@[simp] theorem Store.putHeight_accounts_self (s : Store) (a h : Nat) :
    (s.putHeight a h).accounts a = h := by simp [Store.putHeight]

theorem Store.putHeight_accounts (s : Store) (a h x : Nat) :
    (s.putHeight a h).accounts x = if x = a then h else s.accounts x := rfl

/-- State of `nano::pending_confirmation_height`: the set of hashes awaiting
processing (membership is what matters; modelled as a list) and the single
hash currently being processed (`0` when idle). -/
structure PendingConf where
  current_hash : Nat
  pending : List Nat
  deriving Repr, DecidableEq

/-- Operation `pending_confirmation_height::is_processing_block`: first check
the hash currently being processed, then the remaining pending confirmations. -/
def PendingConf.isProcessingBlock (pc : PendingConf) (h : Nat) : Bool :=
  if pc.current_hash ≠ 0 ∧ pc.current_hash = h then true
  else pc.pending.contains h

/-- Record `conf_height_details`: one queued confirmation-height write. -/
structure ConfHeightDetails where
  account : Nat
  hash : Nat
  height : Nat
  num_blocks_confirmed : Nat
  deriving Repr, DecidableEq

/-- Record `receive_source_pair`: one DFS frame, pairing the receive block
that caused the descent with the source block whose chain is explored next. -/
structure ReceiveSourcePair where
  receive_details : ConfHeightDetails
  source_hash : Nat
  deriving Repr, DecidableEq

/-- Record `confirmed_iterated_pair`: per-invocation scratch per account. -/
structure ConfirmedIteratedPair where
  confirmed_height : Nat
  iterated_height : Nat
  deriving Repr, DecidableEq

/-- Overwrite the `num_blocks_confirmed` of the back (most recently pushed)
frame of the DFS stack; no-op on an empty stack. -/
def setBackNbc (stack : List ReceiveSourcePair) (v : Nat) : List ReceiveSourcePair :=
  match stack.getLast? with
  | none => stack
  | some p =>
      stack.dropLast ++
        [{ p with receive_details := { p.receive_details with num_blocks_confirmed := v } }]

/-- Result of `collect_unconfirmed_receive_and_sources_for_account`: the DFS
stack after the walk, the accumulated `confirm_block` notifications, and the
number of loop iterations executed. -/
structure CollectRes where
  stack : List ReceiveSourcePair
  confirms : List Nat
  iters : Nat
  deriving Repr, DecidableEq

/-- Loop of `collect_unconfirmed_receive_and_sources_for_account`
(lines 321 to 361): walk down from the top hash for `num_to_confirm` steps,
notifying the election collaborator of each block not currently being
processed and pushing a DFS frame for every block whose effective source
(`source ()`, or `link ()` when that is zero) is a stored non-epoch block.
`num_to_confirm` is decremented every iteration, also when the block is
absent, in which case nothing else happens and the hash does not advance. -/
def collectGo (s : Store) (pc : PendingConf) (epoch account_a down_to : Nat) :
    Nat → Nat → Nat → List ReceiveSourcePair → List Nat → CollectRes
  | 0, _, _, stack, confirms => ⟨stack, confirms, 0⟩
  | n + 1, hash, next_height, stack, confirms =>
    if hash = 0 then ⟨stack, confirms, 0⟩
    else
      match s.blocks hash with
      | none =>
          let r := collectGo s pc epoch account_a down_to n hash next_height stack confirms
          ⟨r.stack, r.confirms, r.iters + 1⟩
      | some b =>
          let confirms1 := if pc.isProcessingBlock hash then confirms else confirms ++ [hash]
          let src := if b.source = 0 then b.link else b.source
          if src ≠ 0 ∧ src ≠ epoch ∧ s.sourceExists src then
            let bh := down_to + (n + 1)
            let stack1 :=
              if next_height ≠ heightNotSet then setBackNbc stack (u64sub next_height bh)
              else stack
            let stack2 := stack1 ++ [⟨⟨account_a, hash, bh, heightNotSet⟩, src⟩]
            let r := collectGo s pc epoch account_a down_to n b.previous bh stack2 confirms1
            ⟨r.stack, r.confirms, r.iters + 1⟩
          else
            let r := collectGo s pc epoch account_a down_to n b.previous next_height stack confirms1
            ⟨r.stack, r.confirms, r.iters + 1⟩

/-- Function `collect_unconfirmed_receive_and_sources_for_account`
(lines 313 to 368): run the walk, then — whenever the DFS stack is nonempty,
whether or not this call pushed anything — set the back frame's
`num_blocks_confirmed` to its height minus this call's base height. -/
def collectUnconfirmed (s : Store) (pc : PendingConf) (epoch : Nat)
    (block_height_a confirmation_height_a hash_a account_a : Nat)
    (stack : List ReceiveSourcePair) (confirms : List Nat) : CollectRes :=
  let r := collectGo s pc epoch account_a confirmation_height_a
    (block_height_a - confirmation_height_a) hash_a heightNotSet stack confirms
  match r.stack.getLast? with
  | none => r
  | some p =>
      { r with stack := setBackNbc r.stack (u64sub p.receive_details.height confirmation_height_a) }

/-- Modelled from the spec: the constant `batch_write_size` lives in the
class declaration (`confirmation_height_processor.hpp`), which is not part
of this excerpt; the spec gives 4096 as its value. -/
def batchWriteSize : Nat := 4096

/-- Accumulator threaded through `write_pending`: the store, the running
`total_pending_write_block_count` (an `int64_t` in the source), the
failure log, the two stats this code touches, and the entries applied. -/
structure WpAcc where
  store : Store
  total : Int
  failedLogs : List Nat
  statInvalid : Nat
  statBlocksConfirmed : Nat
  applied : List ConfHeightDetails

/-- Result of `write_pending`: final accumulator, the entries left in the
deque, the returned error flag, and a divergence marker for the one input
class on which the C++ loop would never return. -/
structure WpRes where
  acc : WpAcc
  remaining : List ConfHeightDetails
  error : Bool
  diverged : Bool

/-- Inner loop of `write_pending` (lines 270 to 308): drain entries under one
write transaction.  An entry whose height exceeds the stored confirmation
height is applied after checking that its block still exists; a missing
block logs the failure, bumps the `invalid_block` stat and returns the error
with the entry still queued.  Every processed entry decrements the running
total, and the batch stops after `batch_write_size` entries. -/
def wpInner (acc : WpAcc) :
    List ConfHeightDetails → Nat → WpAcc × List ConfHeightDetails × Bool
  | [], _ => (acc, [], false)
  | e :: rest, count =>
    let ch := acc.store.accounts e.account
    if e.height > ch then
      match acc.store.blocks e.hash with
      | none =>
          ({ acc with
              failedLogs := acc.failedLogs ++ [e.hash],
              statInvalid := acc.statInvalid + 1 },
            e :: rest, true)
      | some _ =>
          let acc1 : WpAcc :=
            { acc with
              store := (acc.store.putHeight e.account e.height),
              statBlocksConfirmed := acc.statBlocksConfirmed + (e.height - ch),
              applied := acc.applied ++ [e],
              total := acc.total - (e.num_blocks_confirmed : Int) }
          if count + 1 ≥ batchWriteSize then (acc1, rest, false)
          else wpInner acc1 rest (count + 1)
    else
      let acc1 : WpAcc := { acc with total := acc.total - (e.num_blocks_confirmed : Int) }
      if count + 1 ≥ batchWriteSize then (acc1, rest, false)
      else wpInner acc1 rest (count + 1)

/-- Outer loop of `write_pending` (lines 266 to 309): start a fresh write
transaction and a fresh inner batch while the running total is positive.
When the total is positive but the deque is empty the C++ loop spins
forever; that input class is marked `diverged`. -/
def wpOuter : Nat → WpAcc → List ConfHeightDetails → WpRes
  | 0, acc, entries => ⟨acc, entries, false, true⟩
  | fuel + 1, acc, entries =>
    if acc.total ≤ 0 then ⟨acc, entries, false, false⟩
    else
      match entries with
      | [] => ⟨acc, [], false, true⟩
      | e :: rest =>
          let r := wpInner acc (e :: rest) 0
          if r.2.2 then ⟨r.1, r.2.1, true, false⟩
          else wpOuter fuel r.1 r.2.1

/-- Function `write_pending` (lines 260 to 311).  The fuel
`entries.length + 1` is enough for every terminating input, because each
outer iteration that recurses has drained at least one entry. -/
def writePending (acc : WpAcc) (entries : List ConfHeightDetails) : WpRes :=
  wpOuter (entries.length + 1) acc entries

/-- Lookup in the per-invocation `confirmed_iterated_pairs` map, modelled as
an association list with unique keys. -/
def cipLookup (m : List (Nat × ConfirmedIteratedPair)) (a : Nat) :
    Option ConfirmedIteratedPair :=
  match m with
  | [] => none
  | (k, v) :: t => if k = a then some v else cipLookup t a

/-- Update the entry of one account in the `confirmed_iterated_pairs` map. -/
def cipUpdate (m : List (Nat × ConfirmedIteratedPair)) (a : Nat)
    (f : ConfirmedIteratedPair → ConfirmedIteratedPair) :
    List (Nat × ConfirmedIteratedPair) :=
  m.map fun p => if p.1 = a then (p.1, f p.2) else p

/-- Immutable per-invocation inputs of `add_confirmation_height`: the
top-level hash, the pending-queue snapshot consulted by `is_processing`,
and the epoch-link sentinel. -/
structure TravCfg where
  hash_a : Nat
  pc : PendingConf
  epoch : Nat

/-- Mutable state of one `add_confirmation_height` invocation, together with
the observable events (election notifications, logs, stats, applied writes). -/
structure TravState where
  stack : List ReceiveSourcePair
  pendingWrites : List ConfHeightDetails
  cip : List (Nat × ConfirmedIteratedPair)
  current : Nat
  receiveDetails : Option ConfHeightDetails
  store : Store
  confirms : List Nat
  failedLogs : List Nat
  largeLogs : List Nat
  statInvalid : Nat
  statBlocksConfirmed : Nat
  applied : List ConfHeightDetails
  flushes : Nat
  error : Bool

/-- Outcome of one iteration of the do-while loop: continue, break out of the
loop (error found or stop requested), or hit the divergent `write_pending`
input class. -/
inductive StepRes where
  | next (st : TravState)
  | halt (st : TravState)
  | hang

/-- Step A of one iteration (lines 116 to 131): pick the current hash and
the receive details of the frame being processed. -/
def pickCurrent (cfg : TravCfg) (st : TravState) : Nat × Option ConfHeightDetails :=
  match st.stack.getLast? with
  | some top => (top.source_hash, some top.receive_details)
  | none =>
      match st.receiveDetails with
      | some _ => (cfg.hash_a, none)
      | none => (st.current, none)

/-- Effective confirmation height (lines 136 to 145): the stored height,
raised to the scratch-map value when that is larger. -/
def effConfirmed (mp : Option ConfirmedIteratedPair) (ch0 : Nat) : Nat :=
  match mp with
  | some p => if p.confirmed_height > ch0 then p.confirmed_height else ch0
  | none => ch0

/-- Effective iterated height (lines 137 to 149). -/
def effIterated (mp : Option ConfirmedIteratedPair) (ch0 : Nat) : Nat :=
  match mp with
  | some p =>
      let c := if p.confirmed_height > ch0 then p.confirmed_height else ch0
      if p.iterated_height > c then p.iterated_height else c
  | none => ch0

/-- Scratch-map update of the branch where the descent pushed new frames
(lines 217 to 227): record the iterated height only. -/
def pendUpdate (mp : Option ConfirmedIteratedPair) (cip : List (Nat × ConfirmedIteratedPair))
    (account confirmation_height block_height iterated_height : Nat) :
    List (Nat × ConfirmedIteratedPair) :=
  if block_height > iterated_height then
    match mp with
    | some _ => cipUpdate cip account fun q => ⟨q.confirmed_height, block_height⟩
    | none => cip ++ [(account, ⟨confirmation_height, block_height⟩)]
  else cip

/-- Lines 171 to 188: emit the write for the current account's own chain
when its height exceeds the effective confirmation height. -/
def emitOwn (mp : Option ConfirmedIteratedPair) (cip : List (Nat × ConfirmedIteratedPair))
    (writes : List ConfHeightDetails)
    (account current block_height confirmation_height iterated_height : Nat) :
    List (Nat × ConfirmedIteratedPair) × List ConfHeightDetails :=
  if block_height > confirmation_height then
    (match mp with
      | some _ =>
          cipUpdate cip account fun q =>
            ⟨block_height, if block_height > iterated_height then block_height
              else q.iterated_height⟩
      | none => cip ++ [(account, ⟨block_height, block_height⟩)],
      writes ++ [⟨account, current, block_height, block_height - confirmation_height⟩])
  else (cip, writes)

/-- Lines 190 to 208: emit the write for the receive block that caused the
descent, reconciling its `num_blocks_confirmed` against the scratch map. -/
def emitRecv (cip : List (Nat × ConfirmedIteratedPair)) (writes : List ConfHeightDetails)
    (rd : Option ConfHeightDetails) :
    List (Nat × ConfirmedIteratedPair) × List ConfHeightDetails × Option ConfHeightDetails :=
  match rd with
  | some r =>
      match cipLookup cip r.account with
      | some p =>
          let r2 := { r with num_blocks_confirmed := u64sub r.height p.confirmed_height }
          (cipUpdate cip r.account fun q => ⟨r.height, q.iterated_height⟩,
            writes ++ [r2], some r2)
      | none => (cip ++ [(r.account, ⟨r.height, r.height⟩)], writes ++ [r], some r)
  | none => (cip, writes, none)

/-- Step E (lines 166 to 227): either record only the iterated height (when
the descent pushed new frames) or emit the writes for this frame and pop it. -/
def stepEmit (mp : Option ConfirmedIteratedPair) (cip : List (Nat × ConfirmedIteratedPair))
    (writes : List ConfHeightDetails) (rd : Option ConfHeightDetails)
    (stackA : List ReceiveSourcePair) (pending : Bool)
    (account cur bh ceff iteff : Nat) :
    List (Nat × ConfirmedIteratedPair) × List ConfHeightDetails ×
      Option ConfHeightDetails × List ReceiveSourcePair :=
  if pending then
    (pendUpdate mp cip account ceff bh iteff, writes, rd, stackA)
  else
    let cw := emitOwn mp cip writes account cur bh ceff iteff
    let cwr := emitRecv cw.1 cw.2 rd
    (cwr.1, cwr.2.1, cwr.2.2, stackA.dropLast)

/-- Steps A to E of one iteration of the do-while body of
`add_confirmation_height` (lines 114 to 227): pick the current frame,
resolve its account and heights, descend through the unscanned region, and
decide whether to emit writes for this frame.  The store is not touched. -/
def travStepCore (cfg : TravCfg) (st : TravState) : TravState :=
  let ar := pickCurrent cfg st
  let current := ar.1
  let rd := ar.2
  -- Step B: resolve account, heights and the scratch-map entry (133 to 150).
  let block_height := st.store.blockAccountHeight current
  let account := st.store.blockAccount current
  let ch0 := st.store.accounts account
  let mp := cipLookup st.cip account
  let confirmation_height := effConfirmed mp ch0
  let iterated_height := effIterated mp ch0
  -- Step C: descend through the unscanned region (152 to 161).
  let count_before := st.stack.length
  let largeLogs1 :=
    if block_height > iterated_height ∧ block_height - iterated_height > 20000 then
      st.largeLogs ++ [current]
    else st.largeLogs
  let cres :=
    if block_height > iterated_height then
      collectUnconfirmed st.store cfg.pc cfg.epoch block_height iterated_height current account
        st.stack st.confirms
    else ⟨st.stack, st.confirms, 0⟩
  -- Step E: decide whether to emit writes for this frame (166 to 227).
  let confirmed_receives_pending := decide (cres.stack.length ≠ count_before)
  let er := stepEmit mp st.cip st.pendingWrites rd cres.stack confirmed_receives_pending
    account current block_height confirmation_height iterated_height
  let cip2 := er.1
  let writes2 := er.2.1
  let rdOut := er.2.2.1
  let stack2 := er.2.2.2
  { st with
    stack := stack2, pendingWrites := writes2, cip := cip2, current := current,
    receiveDetails := rdOut, confirms := cres.confirms, largeLogs := largeLogs1 }

/-- Running total of `num_blocks_confirmed` over the pending writes
(lines 230 to 232). -/
def sumNbc (l : List ConfHeightDetails) : Nat :=
  l.foldl (fun t e => t + e.num_blocks_confirmed) 0

/-- One iteration of the do-while body of `add_confirmation_height`
(lines 114 to 253): steps A to E via `travStepCore`, then step F — flush
when a batch is full or the stack has drained (lines 229 to 245) — and the
step G stop check, with `stoppedNow` the value the `stopped` flag is
observed to have at the line 248 check of this iteration. -/
def travStep (cfg : TravCfg) (stoppedNow : Bool) (st : TravState) : StepRes :=
  let st1 := travStepCore cfg st
  if (st1.pendingWrites.length ≥ batchWriteSize ∨ st1.stack = []) ∧ st1.pendingWrites ≠ [] then
    let wr := writePending
      ⟨st1.store, (sumNbc st1.pendingWrites : Int), st1.failedLogs, st1.statInvalid,
        st1.statBlocksConfirmed, st1.applied⟩ st1.pendingWrites
    if wr.diverged then .hang
    else
      let st2 : TravState :=
        { st1 with
          store := wr.acc.store, pendingWrites := wr.remaining,
          failedLogs := wr.acc.failedLogs, statInvalid := wr.acc.statInvalid,
          statBlocksConfirmed := wr.acc.statBlocksConfirmed, applied := wr.acc.applied,
          flushes := st1.flushes + 1 }
      if wr.error then .halt { st2 with stack := [], error := true }
      else if stoppedNow then .halt st2
      else .next st2
  else if stoppedNow then .halt st1
  else .next st1

/-- Do-while loop of `add_confirmation_height`: iterate `travStep` while the
DFS stack is nonempty or the current hash differs from the top-level hash.
`sched` gives the observed value of the `stopped` flag per iteration
(`false` when exhausted); `none` means the fuel ran out or `write_pending`
diverged. -/
def travLoop (cfg : TravCfg) : Nat → List Bool → TravState → Option TravState
  | 0, _, _ => none
  | n + 1, sched, st =>
    match travStep cfg (sched.headD false) st with
    | .hang => none
    | .halt st1 => some st1
    | .next st1 =>
        if st1.stack = [] ∧ st1.current = cfg.hash_a then some st1
        else travLoop cfg n sched.tail st1

/-- Initial traversal state of one invocation (lines 99 to 110): empty DFS
stack, empty pending writes, empty scratch map, `current = hash_a`. -/
def initState (s : Store) (hash_a : Nat) : TravState :=
  { stack := [], pendingWrites := [], cip := [], current := hash_a,
    receiveDetails := none, store := s, confirms := [], failedLogs := [],
    largeLogs := [], statInvalid := 0, statBlocksConfirmed := 0, applied := [],
    flushes := 0, error := false }

/-- Function `add_confirmation_height` on a given pending-queue snapshot. -/
def addConfirmationHeight (s : Store) (pc : PendingConf) (epoch hash_a : Nat)
    (sched : List Bool) (fuel : Nat) : Option TravState :=
  travLoop ⟨hash_a, pc, epoch⟩ fuel sched (initState s hash_a)

/-- One `process (H)` invocation as performed by `run` (lines 62 to 74): the
worker moves `H` from `pending` to `current_hash` and then calls
`add_confirmation_height (H)`, so for the whole invocation the queue
snapshot has `current_hash = H`.  No stop is requested. -/
def processHash (s : Store) (epoch hash : Nat) (fuel : Nat) : Option TravState :=
  addConfirmationHeight s ⟨hash, []⟩ epoch hash [] fuel

/-! Concrete stores used to instantiate the claims. -/

/-- Single-account chain: account 7 holds blocks hashed 1 to 100 at heights
1 to 100, none of them receives; stored confirmation height 1. -/
def store100 : Store :=
  { blocks := fun h => if 1 ≤ h ∧ h ≤ 100 then some ⟨h - 1, 0, 0, 7, h⟩ else none,
    accounts := fun a => if a = 7 then 1 else 0 }

/-- Self-send chain of account 5: block 1 confirmed, block 2 a send to self,
block 3 a receive whose source is block 2. -/
def storeSelf : Store :=
  { blocks := fun h =>
      if h = 1 then some ⟨0, 0, 0, 5, 1⟩
      else if h = 2 then some ⟨1, 0, 0, 5, 2⟩
      else if h = 3 then some ⟨2, 2, 0, 5, 3⟩
      else none,
    accounts := fun a => if a = 5 then 1 else 0 }

/-- Account 9 with three blocks (hashes 31, 32, 33), none of them receives;
stored confirmation height 2.  A descent over it pushes no DFS frame. -/
def storeC5 : Store :=
  { blocks := fun h =>
      if h = 31 then some ⟨0, 0, 0, 9, 1⟩
      else if h = 32 then some ⟨31, 0, 0, 9, 2⟩
      else if h = 33 then some ⟨32, 0, 0, 9, 3⟩
      else none,
    accounts := fun a => if a = 9 then 2 else 0 }

/-- A DFS frame left on the stack by an earlier descent: receive block 55 of
account 2 at height 5, `num_blocks_confirmed` already fixed to 4. -/
def oldFrameC5 : ReceiveSourcePair := ⟨⟨2, 55, 5, 4⟩, 33⟩

/-! Helper lemmas. -/

theorem setBackNbc_getLast (stack : List ReceiveSourcePair) (p : ReceiveSourcePair) (v : Nat)
    (h : stack.getLast? = some p) :
    (setBackNbc stack v).getLast? =
      some { p with receive_details := { p.receive_details with num_blocks_confirmed := v } } := by
  simp only [setBackNbc, h]
  exact List.getLast?_concat _

theorem collectGo_iters_le (s : Store) (pc : PendingConf) (epoch acct dt : Nat) :
    ∀ (n hash nh : Nat) (stack : List ReceiveSourcePair) (confirms : List Nat),
      (collectGo s pc epoch acct dt n hash nh stack confirms).iters ≤ n := by
  intro n
  induction n with
  | zero => intro hash nh stack confirms; simp [collectGo]
  | succ n ih =>
      intro hash nh stack confirms
      unfold collectGo
      dsimp only
      split
      · exact Nat.zero_le _
      · split
        · exact Nat.succ_le_succ (ih _ _ _ _)
        · repeat' split
          all_goals exact Nat.succ_le_succ (ih _ _ _ _)

/-- CLAIM C10: `collect_unconfirmed` always terminates: for any
`from_height ≥ down_to_height` its loop runs at most
`from_height − down_to_height` iterations because the remaining count
decreases by one every iteration — even when `block_get` returns no block
for the current hash, in which case that iteration pushes no DFS frame,
performs no `confirm_block` call and does not advance the hash, so missing
blocks are silently skipped rather than aborting the descent. -/
theorem C10_collect_terminates :
    (∀ (s : Store) (pc : PendingConf) (epoch acct dt n hash nh : Nat)
        (stack : List ReceiveSourcePair) (confirms : List Nat),
      (collectGo s pc epoch acct dt n hash nh stack confirms).iters ≤ n) ∧
    (∀ (s : Store) (pc : PendingConf) (epoch bh ch hash acct : Nat)
        (stack : List ReceiveSourcePair) (confirms : List Nat),
      (collectUnconfirmed s pc epoch bh ch hash acct stack confirms).iters ≤ bh - ch) ∧
    (∀ (s : Store) (pc : PendingConf) (epoch acct dt n hash nh : Nat)
        (stack : List ReceiveSourcePair) (confirms : List Nat),
      hash ≠ 0 → s.blocks hash = none →
      collectGo s pc epoch acct dt (n + 1) hash nh stack confirms =
        ⟨(collectGo s pc epoch acct dt n hash nh stack confirms).stack,
         (collectGo s pc epoch acct dt n hash nh stack confirms).confirms,
         (collectGo s pc epoch acct dt n hash nh stack confirms).iters + 1⟩) := by
  refine ⟨fun s pc epoch acct dt n hash nh stack confirms =>
      collectGo_iters_le s pc epoch acct dt n hash nh stack confirms, ?_, ?_⟩
  · intro s pc epoch bh ch hash acct stack confirms
    have h := collectGo_iters_le s pc epoch acct ch (bh - ch) hash heightNotSet stack confirms
    unfold collectUnconfirmed
    simp only []
    split
    · exact h
    · simpa using h
  · intro s pc epoch acct dt n hash nh stack confirms h0 hb
    conv_lhs => unfold collectGo
    simp [h0, hb]

/-- Witness for C10 at a concrete input: a one-step walk over a store with
a missing block executes exactly one iteration and changes nothing. -/
theorem C10_collect_terminates_witness :
    collectGo storeC5 ⟨0, []⟩ 999 9 2 1 77 heightNotSet [] [] =
      ⟨(collectGo storeC5 ⟨0, []⟩ 999 9 2 0 77 heightNotSet [] []).stack,
       (collectGo storeC5 ⟨0, []⟩ 999 9 2 0 77 heightNotSet [] []).confirms,
       (collectGo storeC5 ⟨0, []⟩ 999 9 2 0 77 heightNotSet [] []).iters + 1⟩ :=
  C10_collect_terminates.2.2 storeC5 ⟨0, []⟩ 999 9 2 0 77 heightNotSet [] []
    (by decide) (by simp [storeC5])

/-- CLAIM C6: `is_processing (h)` returns true if and only if `h` equals the
current hash and the current hash is nonzero, or `h` is a member of the
pending set; at most one hash is current at any instant. -/
theorem C6_is_processing_iff (pc : PendingConf) (h : Nat) :
    (pc.isProcessingBlock h = true ↔
      ((pc.current_hash ≠ 0 ∧ h = pc.current_hash) ∨ h ∈ pc.pending)) ∧
    (∀ h1 h2 : Nat, (pc.current_hash ≠ 0 ∧ h1 = pc.current_hash) →
      (pc.current_hash ≠ 0 ∧ h2 = pc.current_hash) → h1 = h2) := by
  constructor
  · unfold PendingConf.isProcessingBlock
    split
    · rename_i hcur
      simp only [true_iff]
      exact Or.inl ⟨hcur.1, hcur.2.symm⟩
    · rename_i hcur
      rw [not_and_or] at hcur
      constructor
      · intro hc
        exact Or.inr (List.elem_iff.mp hc)
      · intro hc
        rcases hc with ⟨hne, heq⟩ | hmem
        · cases hcur with
          | inl hz => exact absurd hne hz
          | inr hne2 => exact absurd heq.symm hne2
        · exact List.elem_iff.mpr hmem
  · rintro h1 h2 ⟨-, rfl⟩ ⟨-, rfl⟩
    rfl

/-- Witness for C6 at a concrete input: with current hash 5 and pending
set `{7}`, the hash 7 is reported as being processed. -/
theorem C6_is_processing_iff_witness :
    (PendingConf.mk 5 [7]).isProcessingBlock 7 = true :=
  (C6_is_processing_iff ⟨5, [7]⟩ 7).1.mpr (Or.inr (by decide))

/-- COUNTEREXAMPLE to C5: a descent over account 9 (no receive blocks, so
nothing is pushed: the stack length stays 1) nevertheless modifies the frame
left on the stack by an earlier descent — its `num_blocks_confirmed` changes
from 4 to `5 − 2 = 3` because the end-of-descent fix-up at line 364 tests
only that the global stack is nonempty. -/
theorem C5_counterexample :
    (collectUnconfirmed storeC5 ⟨0, []⟩ 999 3 2 33 9 [oldFrameC5] []).stack.length =
      ([oldFrameC5] : List ReceiveSourcePair).length ∧
    (collectUnconfirmed storeC5 ⟨0, []⟩ 999 3 2 33 9 [oldFrameC5] []).stack =
      [⟨⟨2, 55, 5, 3⟩, 33⟩] ∧
    oldFrameC5.receive_details.num_blocks_confirmed = 4 := by
  decide

/-- CLAIM C5, amended: at the end of each `collect_unconfirmed` call the
number-of-blocks fix-up is applied if and only if the DFS stack is nonempty
at that point — whether or not this descent pushed anything — and it sets
the back frame's `receive_details.num_blocks_confirmed` to that frame's
height minus this call's `down_to_height`; in particular when no frame was
pushed during the descent it modifies a frame left by an earlier descent. -/
theorem C5_final_fixup (s : Store) (pc : PendingConf) (epoch bh ch hash acct : Nat)
    (stack : List ReceiveSourcePair) (confirms : List Nat) (p : ReceiveSourcePair)
    (hp : (collectUnconfirmed s pc epoch bh ch hash acct stack confirms).stack.getLast? = some p) :
    p.receive_details.num_blocks_confirmed = u64sub p.receive_details.height ch := by
  unfold collectUnconfirmed at hp
  dsimp only at hp
  rcases hl : (collectGo s pc epoch acct ch (bh - ch) hash heightNotSet stack confirms).stack.getLast?
    with - | q
  · simp only [hl] at hp
    exact Option.noConfusion hp
  · simp only [hl] at hp
    rw [setBackNbc_getLast _ q _ hl] at hp
    cases hp
    rfl

/-- Witness for C5 at the concrete counterexample input: the surviving back
frame carries `num_blocks_confirmed = u64sub 5 2 = 3`. -/
theorem C5_final_fixup_witness :
    (collectUnconfirmed storeC5 ⟨0, []⟩ 999 3 2 33 9 [oldFrameC5] []).stack.getLast? =
      some ⟨⟨2, 55, 5, 3⟩, 33⟩ ∧ (3 : Nat) = u64sub 5 2 :=
  ⟨by decide, C5_final_fixup storeC5 ⟨0, []⟩ 999 3 2 33 9 [oldFrameC5] [] ⟨⟨2, 55, 5, 3⟩, 33⟩
    (by decide)⟩

theorem putHeight_le (s : Store) (b h a : Nat) (hle : s.accounts b ≤ h) :
    s.accounts a ≤ (s.putHeight b h).accounts a := by
  rw [Store.putHeight_accounts]
  split
  · rename_i hab; subst hab; exact hle
  · exact le_refl _

theorem wpInner_store_mono :
    ∀ (entries : List ConfHeightDetails) (acc : WpAcc) (count a : Nat),
      acc.store.accounts a ≤ (wpInner acc entries count).1.store.accounts a := by
  intro entries
  induction entries with
  | nil => intro acc count a; exact le_refl _
  | cons e rest ih =>
      intro acc count a
      unfold wpInner
      dsimp only
      split
      · rename_i hgt
        split
        · exact le_refl _
        · split
          · exact putHeight_le _ _ _ _ (le_of_lt hgt)
          · exact le_trans (putHeight_le _ _ _ _ (le_of_lt hgt))
              (ih { acc with
                store := acc.store.putHeight e.account e.height,
                statBlocksConfirmed :=
                  acc.statBlocksConfirmed + (e.height - acc.store.accounts e.account),
                applied := acc.applied ++ [e],
                total := acc.total - (e.num_blocks_confirmed : Int) } (count + 1) a)
      · split
        · exact le_refl _
        · exact ih { acc with total := acc.total - (e.num_blocks_confirmed : Int) }
            (count + 1) a

theorem wpOuter_store_mono :
    ∀ (fuel : Nat) (acc : WpAcc) (entries : List ConfHeightDetails) (a : Nat),
      acc.store.accounts a ≤ (wpOuter fuel acc entries).acc.store.accounts a := by
  intro fuel
  induction fuel with
  | zero => intro acc entries a; exact le_refl _
  | succ fuel ih =>
      intro acc entries a
      unfold wpOuter
      dsimp only
      split
      · exact le_refl _
      · split
        · exact le_refl _
        · rename_i e rest
          split
          · exact wpInner_store_mono (e :: rest) acc 0 a
          · exact le_trans (wpInner_store_mono (e :: rest) acc 0 a)
              (ih (wpInner acc (e :: rest) 0).1 (wpInner acc (e :: rest) 0).2.1 a)

theorem wpInner_remaining_sub :
    ∀ (entries : List ConfHeightDetails) (acc : WpAcc) (count : Nat)
      (x : ConfHeightDetails), x ∈ (wpInner acc entries count).2.1 → x ∈ entries := by
  intro entries
  induction entries with
  | nil => intro acc count x hx; exact absurd hx (by simp [wpInner])
  | cons e rest ih =>
      intro acc count x
      unfold wpInner
      dsimp only
      split
      · split
        · exact id
        · split
          · exact fun hx => List.mem_cons_of_mem e hx
          · exact fun hx => List.mem_cons_of_mem e (ih _ _ _ hx)
      · split
        · exact fun hx => List.mem_cons_of_mem e hx
        · exact fun hx => List.mem_cons_of_mem e (ih _ _ _ hx)

theorem wpInner_exact :
    ∀ (entries : List ConfHeightDetails) (acc : WpAcc) (count a : Nat),
      (wpInner acc entries count).1.store.accounts a = acc.store.accounts a ∨
      ∃ e ∈ entries, e.account = a ∧
        (wpInner acc entries count).1.store.accounts a = e.height ∧
        acc.store.accounts a < e.height := by
  intro entries
  induction entries with
  | nil => intro acc count a; left; rfl
  | cons e rest ih =>
      intro acc count a
      unfold wpInner
      dsimp only
      split
      · rename_i hgt
        split
        · left; rfl
        · split
          · by_cases hae : a = e.account
            · subst hae
              right
              exact ⟨e, List.mem_cons_self e rest, rfl, by simp [Store.putHeight], hgt⟩
            · left
              simp [Store.putHeight_accounts, hae]
          · rcases ih { acc with
                store := acc.store.putHeight e.account e.height,
                statBlocksConfirmed :=
                  acc.statBlocksConfirmed + (e.height - acc.store.accounts e.account),
                applied := acc.applied ++ [e],
                total := acc.total - (e.num_blocks_confirmed : Int) } (count + 1) a with
              h | ⟨e1, he1m, he1a, he1h, he1lt⟩
            · by_cases hae : a = e.account
              · subst hae
                right
                refine ⟨e, List.mem_cons_self e rest, rfl, ?_, hgt⟩
                rw [h]; simp [Store.putHeight]
              · left
                rw [h]; simp [Store.putHeight_accounts, hae]
            · right
              refine ⟨e1, List.mem_cons_of_mem e he1m, he1a, he1h, ?_⟩
              exact lt_of_le_of_lt (putHeight_le _ _ _ _ (le_of_lt hgt)) he1lt
      · split
        · left; rfl
        · rcases ih { acc with total := acc.total - (e.num_blocks_confirmed : Int) }
              (count + 1) a with h | ⟨e1, hm, ha, hh, hl⟩
          · left; exact h
          · right; exact ⟨e1, List.mem_cons_of_mem e hm, ha, hh, hl⟩

theorem wpOuter_exact :
    ∀ (fuel : Nat) (acc : WpAcc) (entries : List ConfHeightDetails) (a : Nat),
      (wpOuter fuel acc entries).acc.store.accounts a = acc.store.accounts a ∨
      ∃ e ∈ entries, e.account = a ∧
        (wpOuter fuel acc entries).acc.store.accounts a = e.height ∧
        acc.store.accounts a < e.height := by
  intro fuel
  induction fuel with
  | zero => intro acc entries a; left; rfl
  | succ fuel ih =>
      intro acc entries a
      unfold wpOuter
      dsimp only
      split
      · left; rfl
      · split
        · left; rfl
        · rename_i e rest
          split
          · exact wpInner_exact (e :: rest) acc 0 a
          · rcases ih (wpInner acc (e :: rest) 0).1 (wpInner acc (e :: rest) 0).2.1 a with
              h | ⟨e1, he1m, he1a, he1h, he1lt⟩
            · rcases wpInner_exact (e :: rest) acc 0 a with h2 | ⟨e2, he2m, he2a, he2h, he2lt⟩
              · left; rw [h, h2]
              · right; exact ⟨e2, he2m, he2a, h.trans he2h, he2lt⟩
            · right
              refine ⟨e1, wpInner_remaining_sub (e :: rest) acc 0 e1 he1m, he1a, he1h, ?_⟩
              exact lt_of_le_of_lt (wpInner_store_mono (e :: rest) acc 0 a) he1lt

theorem travStepCore_store (cfg : TravCfg) (st : TravState) :
    (travStepCore cfg st).store = st.store := rfl

theorem travStep_store_mono (cfg : TravCfg) (b : Bool) (st : TravState) (a : Nat) :
    (∀ st1, travStep cfg b st = .next st1 → st.store.accounts a ≤ st1.store.accounts a) ∧
    (∀ st1, travStep cfg b st = .halt st1 → st.store.accounts a ≤ st1.store.accounts a) := by
  unfold travStep
  dsimp only
  constructor <;> intro st1 h <;> repeat' split at h
  all_goals first
    | (cases h; exact le_refl _)
    | (cases h;
       exact wpOuter_store_mono ((travStepCore cfg st).pendingWrites.length + 1)
          ⟨(travStepCore cfg st).store, (sumNbc (travStepCore cfg st).pendingWrites : Int),
            (travStepCore cfg st).failedLogs, (travStepCore cfg st).statInvalid,
            (travStepCore cfg st).statBlocksConfirmed, (travStepCore cfg st).applied⟩
          (travStepCore cfg st).pendingWrites a)
    | cases h

theorem travLoop_store_mono :
    ∀ (cfg : TravCfg) (fuel : Nat) (sched : List Bool) (st st1 : TravState),
      travLoop cfg fuel sched st = some st1 →
      ∀ a, st.store.accounts a ≤ st1.store.accounts a := by
  intro cfg fuel
  induction fuel with
  | zero => intro sched st st1 h; exact Option.noConfusion h
  | succ fuel ih =>
      intro sched st st1 h a
      unfold travLoop at h
      cases hs : travStep cfg (sched.headD false) st with
      | hang => simp only [hs] at h; exact Option.noConfusion h
      | halt st2 =>
          simp only [hs] at h
          cases h
          exact (travStep_store_mono cfg _ st a).2 _ hs
      | next st2 =>
          simp only [hs] at h
          by_cases hc : st2.stack = [] ∧ st2.current = cfg.hash_a
          · rw [if_pos hc] at h
            cases h
            exact (travStep_store_mono cfg _ st a).1 _ hs
          · rw [if_neg hc] at h
            exact le_trans ((travStep_store_mono cfg _ st a).1 _ hs) (ih _ _ _ h a)

/-- CLAIM C1: for every account, the stored `confirmation_height` is
monotonically non-decreasing across the whole sequence of writes performed
by the processor: `write_pending` never lowers it, it changes a stored
height only through some drained entry whose height strictly exceeded the
height stored when it was applied — setting the stored height to exactly
that entry height — and consequently any completed traversal loop leaves
every account's stored height at least where it started. -/
theorem C1_monotonic_heights :
    (∀ (acc : WpAcc) (entries : List ConfHeightDetails) (a : Nat),
      acc.store.accounts a ≤ (writePending acc entries).acc.store.accounts a) ∧
    (∀ (acc : WpAcc) (entries : List ConfHeightDetails) (a : Nat),
      (writePending acc entries).acc.store.accounts a = acc.store.accounts a ∨
      ∃ e ∈ entries, e.account = a ∧
        (writePending acc entries).acc.store.accounts a = e.height ∧
        acc.store.accounts a < e.height) ∧
    (∀ (cfg : TravCfg) (fuel : Nat) (sched : List Bool) (st st1 : TravState),
      travLoop cfg fuel sched st = some st1 →
      ∀ a, st.store.accounts a ≤ st1.store.accounts a) :=
  ⟨fun acc entries a => wpOuter_store_mono (entries.length + 1) acc entries a,
   fun acc entries a => wpOuter_exact (entries.length + 1) acc entries a,
   travLoop_store_mono⟩

/-- Final state of the self-send scenario run, used by concrete witnesses. -/
def selfFinal : TravState :=
  (processHash storeSelf 999 3 10).getD (initState storeSelf 3)

/-- Witness for C1 at a concrete input: across the completed self-send run
the stored height of account 5 does not decrease. -/
theorem C1_monotonic_heights_witness :
    storeSelf.accounts 5 ≤ selfFinal.store.accounts 5 :=
  C1_monotonic_heights.2.2 ⟨3, ⟨3, []⟩, 999⟩ 10 [] (initState storeSelf 3) selfFinal
    (by rfl) 5

/-- COUNTEREXAMPLE to C3: in the self-send configuration, `process (A3)`
raises account 5 to height 3 through TWO applied `WriteEntry` records —
`(A2, height 2, nbc 1)` then `(A3, height 3, nbc 1)` — not through one
entry with `num_blocks_confirmed = 2`. -/
theorem C3_counterexample :
    processHash storeSelf 999 3 10 = some selfFinal ∧
    selfFinal.store.accounts 5 = 3 ∧
    selfFinal.applied = [⟨5, 2, 2, 1⟩, ⟨5, 3, 3, 1⟩] ∧
    selfFinal.applied.length = 2 :=
  ⟨rfl, rfl, rfl, rfl⟩

/-- CLAIM C3, amended: in the self-send configuration `process (A3)`
terminates without error and raises account A's confirmation height to 3
through a single flush whose two applied entries are `(A2, height 2,
num_blocks_confirmed 1)` and `(A3, height 3, num_blocks_confirmed 1)`;
their `num_blocks_confirmed` values sum to 2 and the `iterated_height`
scratch value prevents any infinite loop. -/
theorem C3_self_send :
    processHash storeSelf 999 3 10 = some selfFinal ∧
    selfFinal.error = false ∧
    selfFinal.store.accounts 5 = 3 ∧
    selfFinal.applied = [⟨5, 2, 2, 1⟩, ⟨5, 3, 3, 1⟩] ∧
    selfFinal.flushes = 1 ∧
    sumNbc selfFinal.applied = 2 :=
  ⟨rfl, rfl, rfl, rfl, rfl, rfl⟩

/-- Final state of the 100-block single-chain scenario run. -/
def chainFinal : TravState :=
  (processHash store100 999 100 10).getD (initState store100 100)

set_option maxRecDepth 100000 in
/-- COUNTEREXAMPLE to C4: on the 100-block chain, `process (block@100)`
invokes `election.confirm_block` 98 times, not 99: the 99 newly confirmed
blocks are visited, but the top-level hash itself is skipped because
`is_processing` reports it as the pending queue's current hash. -/
theorem C4_counterexample :
    processHash store100 999 100 10 = some chainFinal ∧
    chainFinal.applied = [⟨7, 100, 100, 99⟩] ∧
    chainFinal.confirms.length = 98 :=
  ⟨rfl, rfl, rfl⟩

set_option maxRecDepth 100000 in
/-- CLAIM C4, amended: on the 100-block chain with stored confirmation
height 1, `process (block@100)` produces exactly one applied `WriteEntry`
with height 100 and `num_blocks_confirmed = 99`, in one flush, raising the
stored height to 100; `election.confirm_block` is invoked exactly 98 times
— once per newly confirmed block except the top-level hash itself, which
`is_processing` filters out because it is the pending queue's current hash
for the duration of the invocation. -/
theorem C4_single_chain :
    processHash store100 999 100 10 = some chainFinal ∧
    chainFinal.error = false ∧
    chainFinal.store.accounts 7 = 100 ∧
    chainFinal.applied = [⟨7, 100, 100, 99⟩] ∧
    chainFinal.flushes = 1 ∧
    chainFinal.confirms = (List.range 98).map (fun i => 99 - i) :=
  ⟨rfl, rfl, rfl, rfl, rfl, by decide⟩

/-- Final state of the self-send run when a stop is observed at the first
iteration's check of the `stopped` flag. -/
def selfStopFinal : TravState :=
  (addConfirmationHeight storeSelf ⟨3, []⟩ 999 3 [true] 10).getD (initState storeSelf 3)

/-- COUNTEREXAMPLE to C7: when `stop ()` is observed at the line 248 check
while a DFS frame is on the stack, `add_confirmation_height` breaks out of
the loop (line 250) without clearing the stack, so the invocation exits
with a nonempty `receive_source_pairs`. -/
theorem C7_counterexample :
    addConfirmationHeight storeSelf ⟨3, []⟩ 999 3 [true] 10 = some selfStopFinal ∧
    selfStopFinal.stack ≠ [] :=
  ⟨rfl, by decide⟩

theorem travStep_halt_stack (cfg : TravCfg) (st st1 : TravState)
    (h : travStep cfg false st = .halt st1) : st1.stack = [] := by
  unfold travStep at h
  dsimp only at h
  repeat' split at h
  all_goals first
    | (exact absurd ‹false = true› (by decide))
    | (cases h; rfl)
    | cases h

theorem travLoop_stack_empty :
    ∀ (cfg : TravCfg) (fuel : Nat) (st st1 : TravState),
      travLoop cfg fuel [] st = some st1 → st1.stack = [] := by
  intro cfg fuel
  induction fuel with
  | zero => intro st st1 h; exact Option.noConfusion h
  | succ fuel ih =>
      intro st st1 h
      unfold travLoop at h
      cases hs : travStep cfg (List.headD [] false) st with
      | hang => simp only [hs] at h; exact Option.noConfusion h
      | halt st2 =>
          simp only [hs] at h
          cases h
          exact travStep_halt_stack cfg st _ hs
      | next st2 =>
          simp only [hs] at h
          by_cases hc : st2.stack = [] ∧ st2.current = cfg.hash_a
          · rw [if_pos hc] at h; cases h; exact hc.1
          · rw [if_neg hc] at h; exact ih _ _ h

/-- CLAIM C7, amended: the DFS stack `receive_source_pairs` is empty on
entry to every `process (hash)` invocation and empty again on exit along
the normal-completion and write-error paths (any run during which no stop
is observed); when a stop is requested mid-traversal the invocation may
exit with frames still on the stack. -/
theorem C7_stack_empty_no_stop :
    (∀ (s : Store) (hash_a : Nat), (initState s hash_a).stack = []) ∧
    (∀ (cfg : TravCfg) (fuel : Nat) (st st1 : TravState),
      travLoop cfg fuel [] st = some st1 → st1.stack = []) :=
  ⟨fun _ _ => rfl, travLoop_stack_empty⟩

/-- Witness for C7 at a concrete input: the completed self-send run ends
with an empty DFS stack. -/
theorem C7_stack_empty_no_stop_witness : selfFinal.stack = [] :=
  C7_stack_empty_no_stop.2 ⟨3, ⟨3, []⟩, 999⟩ 10 (initState storeSelf 3) selfFinal (by rfl)

theorem sumNbc_nil : sumNbc [] = 0 := rfl

theorem sumNbc_foldl : ∀ (l : List ConfHeightDetails) (t : Nat),
    List.foldl (fun u e => u + e.num_blocks_confirmed) t l = t + sumNbc l := by
  intro l
  induction l with
  | nil => intro t; simp [sumNbc]
  | cons e rest ih =>
      intro t
      simp only [sumNbc, List.foldl_cons]
      rw [ih, ih (0 + e.num_blocks_confirmed)]
      omega

theorem sumNbc_cons (e : ConfHeightDetails) (l : List ConfHeightDetails) :
    sumNbc (e :: l) = e.num_blocks_confirmed + sumNbc l := by
  simp only [sumNbc, List.foldl_cons]
  rw [sumNbc_foldl, sumNbc_foldl]
  omega

/-- Batch-boundary-free restatement of the `write_pending` drain: the same
per-entry processing as `wpInner`, without the periodic transaction commit
and without the outer running-total recheck.  `write_pending` agrees with it
whenever it is called the way `add_confirmation_height` calls it (the total
equals the sum of the queued `num_blocks_confirmed`, all positive). -/
def drainRef (acc : WpAcc) : List ConfHeightDetails → WpRes
  | [] => ⟨acc, [], false, false⟩
  | e :: rest =>
    if e.height > acc.store.accounts e.account then
      match acc.store.blocks e.hash with
      | none =>
          ⟨{ acc with
              failedLogs := acc.failedLogs ++ [e.hash],
              statInvalid := acc.statInvalid + 1 },
            e :: rest, true, false⟩
      | some _ =>
          drainRef
            { acc with
              store := (acc.store.putHeight e.account e.height),
              statBlocksConfirmed :=
                acc.statBlocksConfirmed + (e.height - acc.store.accounts e.account),
              applied := acc.applied ++ [e],
              total := acc.total - (e.num_blocks_confirmed : Int) } rest
    else
      drainRef { acc with total := acc.total - (e.num_blocks_confirmed : Int) } rest

theorem wpInner_remaining_len :
    ∀ (entries : List ConfHeightDetails) (acc : WpAcc) (count : Nat),
      (wpInner acc entries count).2.1.length ≤ entries.length := by
  intro entries
  induction entries with
  | nil => intro acc count; exact Nat.le_refl _
  | cons e rest ih =>
      intro acc count
      unfold wpInner
      dsimp only
      split
      · split
        · exact Nat.le_refl _
        · split
          · exact Nat.le_succ _
          · exact le_trans (ih _ _) (Nat.le_succ _)
      · split
        · exact Nat.le_succ _
        · exact le_trans (ih _ _) (Nat.le_succ _)

theorem wpInner_remaining_lt (entries : List ConfHeightDetails) (acc : WpAcc) (count : Nat)
    (hne : entries ≠ []) (herr : (wpInner acc entries count).2.2 = false) :
    (wpInner acc entries count).2.1.length < entries.length := by
  cases entries with
  | nil => exact absurd rfl hne
  | cons e rest =>
      revert herr
      unfold wpInner
      dsimp only
      split
      · split
        · intro herr; simp at herr
        · split
          · intro _; exact Nat.lt_succ_of_le (Nat.le_refl _)
          · intro _; exact Nat.lt_succ_of_le (wpInner_remaining_len rest _ _)
      · split
        · intro _; exact Nat.lt_succ_of_le (Nat.le_refl _)
        · intro _; exact Nat.lt_succ_of_le (wpInner_remaining_len rest _ _)

theorem wpInner_spec :
    ∀ (entries : List ConfHeightDetails) (acc : WpAcc) (count : Nat),
      ((wpInner acc entries count).2.2 = true →
        drainRef acc entries =
          ⟨(wpInner acc entries count).1, (wpInner acc entries count).2.1, true, false⟩) ∧
      ((wpInner acc entries count).2.2 = false →
        drainRef acc entries =
          drainRef (wpInner acc entries count).1 (wpInner acc entries count).2.1) ∧
      ((wpInner acc entries count).1.total - (sumNbc (wpInner acc entries count).2.1 : Int)
        = acc.total - (sumNbc entries : Int)) := by
  intro entries
  induction entries with
  | nil =>
      intro acc count
      refine ⟨fun h => by simp [wpInner] at h, fun _ => rfl, rfl⟩
  | cons e rest ih =>
      intro acc count
      unfold wpInner
      dsimp only
      split
      · rename_i hgt
        rcases hb : acc.store.blocks e.hash with - | blk
        · simp only [hb]
          refine ⟨fun _ => ?_, ?_, ?_⟩
          · simp [drainRef, hb, hgt]
          · intro h; simp at h
          · trivial
        · simp only [hb]
          have hdr : drainRef acc (e :: rest) =
              drainRef { acc with
                store := (acc.store.putHeight e.account e.height),
                statBlocksConfirmed :=
                  acc.statBlocksConfirmed + (e.height - acc.store.accounts e.account),
                applied := acc.applied ++ [e],
                total := acc.total - (e.num_blocks_confirmed : Int) } rest := by
            simp [drainRef, hb, hgt]
          split
          · refine ⟨fun h => by simp at h, fun _ => hdr, ?_⟩
            dsimp only
            rw [sumNbc_cons]
            push_cast
            ring
          · rcases ih { acc with
                store := (acc.store.putHeight e.account e.height),
                statBlocksConfirmed :=
                  acc.statBlocksConfirmed + (e.height - acc.store.accounts e.account),
                applied := acc.applied ++ [e],
                total := acc.total - (e.num_blocks_confirmed : Int) } (count + 1) with
              ⟨ih1, ih2, ih3⟩
            refine ⟨fun h => (hdr.trans (ih1 h)), fun h => (hdr.trans (ih2 h)), ?_⟩
            rw [ih3]
            dsimp only
            rw [sumNbc_cons]
            push_cast
            ring
      · rename_i hle
        have hdr : drainRef acc (e :: rest) =
            drainRef { acc with total := acc.total - (e.num_blocks_confirmed : Int) } rest := by
          simp [drainRef, hle]
        split
        · refine ⟨fun h => by simp at h, fun _ => hdr, ?_⟩
          dsimp only
          rw [sumNbc_cons]
          push_cast
          ring
        · rcases ih { acc with total := acc.total - (e.num_blocks_confirmed : Int) }
              (count + 1) with ⟨ih1, ih2, ih3⟩
          refine ⟨fun h => (hdr.trans (ih1 h)), fun h => (hdr.trans (ih2 h)), ?_⟩
          rw [ih3]
          dsimp only
          rw [sumNbc_cons]
          push_cast
          ring

theorem wpOuter_drain :
    ∀ (fuel : Nat) (acc : WpAcc) (entries : List ConfHeightDetails),
      entries.length < fuel →
      acc.total = (sumNbc entries : Int) →
      (∀ e ∈ entries, 0 < e.num_blocks_confirmed) →
      wpOuter fuel acc entries = drainRef acc entries := by
  intro fuel
  induction fuel with
  | zero => intro acc entries hlen _ _; exact absurd hlen (Nat.not_lt_zero _)
  | succ fuel ih =>
      intro acc entries hlen htot hpos
      unfold wpOuter
      dsimp only
      split
      · rename_i hle
        cases entries with
        | nil => rfl
        | cons e r =>
            exfalso
            have h1 : 0 < e.num_blocks_confirmed := hpos e (List.mem_cons_self e r)
            rw [sumNbc_cons] at htot
            omega
      · rename_i hgt0
        split
        · exfalso
          rw [sumNbc_nil] at htot
          simp [htot] at hgt0
        · rename_i e rest
          obtain ⟨s1, s2, s3⟩ := wpInner_spec (e :: rest) acc 0
          split
          · rename_i herr
            exact (s1 herr).symm
          · rename_i herr
            have herrf : (wpInner acc (e :: rest) 0).2.2 = false := by
              revert herr
              cases (wpInner acc (e :: rest) 0).2.2 <;> simp
            have hlt : (wpInner acc (e :: rest) 0).2.1.length < fuel := by
              have := wpInner_remaining_lt (e :: rest) acc 0 (by simp) herrf
              simp only [List.length_cons] at this hlen
              omega
            have htot2 : (wpInner acc (e :: rest) 0).1.total =
                (sumNbc (wpInner acc (e :: rest) 0).2.1 : Int) := by
              rw [htot] at s3
              omega
            have hpos2 : ∀ x ∈ (wpInner acc (e :: rest) 0).2.1, 0 < x.num_blocks_confirmed :=
              fun x hx => hpos x (wpInner_remaining_sub (e :: rest) acc 0 x hx)
            rw [ih (wpInner acc (e :: rest) 0).1 (wpInner acc (e :: rest) 0).2.1 hlt htot2 hpos2]
            exact (s2 herrf).symm

/-- Under the conditions holding at its unique call site (line 236: the
passed total is exactly the sum of the queued `num_blocks_confirmed`, each
of them positive), `write_pending` behaves exactly like the
batch-boundary-free drain. -/
theorem writePending_drain (acc : WpAcc) (entries : List ConfHeightDetails)
    (htot : acc.total = (sumNbc entries : Int))
    (hpos : ∀ e ∈ entries, 0 < e.num_blocks_confirmed) :
    writePending acc entries = drainRef acc entries :=
  wpOuter_drain (entries.length + 1) acc entries (Nat.lt_succ_self _) htot hpos

/-- Effect of one drained entry on the store (line 275 and lines 296 to 297,
ignoring the block-existence check): raise the account's stored height when
the entry height strictly exceeds it. -/
def applyOne (s : Store) (e : ConfHeightDetails) : Store :=
  if e.height > s.accounts e.account then s.putHeight e.account e.height else s

/-- Store after draining a list of entries, ignoring block existence. -/
def drainStoreK (s : Store) (l : List ConfHeightDetails) : Store :=
  l.foldl applyOne s

/-- Position `k` of the entry list is a failure point: after draining the
first `k` entries, the entry at `k` still has height strictly above the
stored confirmation height of its account, yet the block at its hash is
absent from the store. -/
def failAt (s : Store) (entries : List ConfHeightDetails) (k : Nat) : Prop :=
  ∃ e, entries[k]? = some e ∧
    (drainStoreK s (entries.take k)).accounts e.account < e.height ∧
    s.blocks e.hash = none

theorem applyOne_blocks (s : Store) (e : ConfHeightDetails) (x : Nat) :
    (applyOne s e).blocks x = s.blocks x := by
  unfold applyOne
  split <;> rfl

theorem drainStoreK_cons (s : Store) (e : ConfHeightDetails) (l : List ConfHeightDetails) :
    drainStoreK s (e :: l) = drainStoreK (applyOne s e) l := rfl

theorem failAt_zero (s : Store) (e : ConfHeightDetails) (rest : List ConfHeightDetails) :
    failAt s (e :: rest) 0 ↔
      (s.accounts e.account < e.height ∧ s.blocks e.hash = none) := by
  unfold failAt
  simp [drainStoreK]

theorem failAt_succ (s : Store) (e : ConfHeightDetails) (rest : List ConfHeightDetails)
    (k : Nat) :
    failAt s (e :: rest) (k + 1) ↔ failAt (applyOne s e) rest k := by
  unfold failAt
  simp [List.take_succ_cons, drainStoreK_cons, applyOne_blocks]

theorem exists_failAt_cons (s : Store) (e : ConfHeightDetails) (rest : List ConfHeightDetails)
    (h0 : ¬(s.accounts e.account < e.height ∧ s.blocks e.hash = none)) :
    (∃ k, failAt s (e :: rest) k) ↔ (∃ k, failAt (applyOne s e) rest k) := by
  constructor
  · rintro ⟨k, hk⟩
    cases k with
    | zero => exact absurd ((failAt_zero s e rest).mp hk) h0
    | succ k => exact ⟨k, (failAt_succ s e rest k).mp hk⟩
  · rintro ⟨k, hk⟩
    exact ⟨k + 1, (failAt_succ s e rest k).mpr hk⟩

theorem drainRef_spec :
    ∀ (entries : List ConfHeightDetails) (acc : WpAcc),
      ((drainRef acc entries).error = true ↔ ∃ k, failAt acc.store entries k) ∧
      ((drainRef acc entries).error = true →
        ∃ k e, entries[k]? = some e ∧ failAt acc.store entries k ∧
          (∀ j, j < k → ¬failAt acc.store entries j) ∧
          (drainRef acc entries).remaining = entries.drop k ∧
          (drainRef acc entries).acc.store = drainStoreK acc.store (entries.take k) ∧
          (drainRef acc entries).acc.failedLogs = acc.failedLogs ++ [e.hash] ∧
          (drainRef acc entries).acc.statInvalid = acc.statInvalid + 1) ∧
      ((drainRef acc entries).error = false →
        (drainRef acc entries).remaining = [] ∧ (drainRef acc entries).diverged = false) := by
  intro entries
  induction entries with
  | nil =>
      intro acc
      refine ⟨?_, ?_, fun _ => ⟨rfl, rfl⟩⟩
      · simp [drainRef, failAt]
      · intro h; simp [drainRef] at h
  | cons e rest ih =>
      intro acc
      by_cases hgt : e.height > acc.store.accounts e.account
      · rcases hb : acc.store.blocks e.hash with - | blk
        · have hres : drainRef acc (e :: rest) =
              ⟨{ acc with
                  failedLogs := acc.failedLogs ++ [e.hash],
                  statInvalid := acc.statInvalid + 1 },
                e :: rest, true, false⟩ := by
            simp [drainRef, hgt, hb]
          rw [hres]
          refine ⟨?_, ?_, ?_⟩
          · exact ⟨fun _ => ⟨0, (failAt_zero acc.store e rest).mpr ⟨hgt, hb⟩⟩, fun _ => rfl⟩
          · intro _
            exact ⟨0, e, by simp, (failAt_zero acc.store e rest).mpr ⟨hgt, hb⟩,
              fun j hj => absurd hj (Nat.not_lt_zero j), by simp, by simp [drainStoreK],
              rfl, rfl⟩
          · intro h; simp at h
        · have hap : applyOne acc.store e = acc.store.putHeight e.account e.height := by
            unfold applyOne; rw [if_pos hgt]
          have hres : drainRef acc (e :: rest) =
              drainRef { acc with
                store := (acc.store.putHeight e.account e.height),
                statBlocksConfirmed :=
                  acc.statBlocksConfirmed + (e.height - acc.store.accounts e.account),
                applied := acc.applied ++ [e],
                total := acc.total - (e.num_blocks_confirmed : Int) } rest := by
            simp [drainRef, hgt, hb]
          rw [hres]
          have h0 : ¬(acc.store.accounts e.account < e.height ∧
              acc.store.blocks e.hash = none) := by
            simp [hb]
          have hiff := exists_failAt_cons acc.store e rest h0
          rw [hap] at hiff
          obtain ⟨ih1, ih2, ih3⟩ := ih { acc with
            store := (acc.store.putHeight e.account e.height),
            statBlocksConfirmed :=
              acc.statBlocksConfirmed + (e.height - acc.store.accounts e.account),
            applied := acc.applied ++ [e],
            total := acc.total - (e.num_blocks_confirmed : Int) }
          refine ⟨ih1.trans hiff.symm, ?_, ih3⟩
          intro herr
          obtain ⟨k, e1, hget, hfail, hmin, hrem, hstore, hlog, hstat⟩ := ih2 herr
          refine ⟨k + 1, e1, by simpa using hget, ?_, ?_, by simpa using hrem, ?_, hlog, hstat⟩
          · rw [failAt_succ, hap]; exact hfail
          · intro j hj
            cases j with
            | zero => rw [failAt_zero]; exact h0
            | succ j => rw [failAt_succ, hap]; exact hmin j (Nat.lt_of_succ_lt_succ hj)
          · rw [List.take_succ_cons, drainStoreK_cons, hap]
            exact hstore
      · have hap : applyOne acc.store e = acc.store := by
          unfold applyOne; rw [if_neg hgt]
        have hres : drainRef acc (e :: rest) =
            drainRef { acc with total := acc.total - (e.num_blocks_confirmed : Int) } rest := by
          simp [drainRef, hgt]
        rw [hres]
        have h0 : ¬(acc.store.accounts e.account < e.height ∧
            acc.store.blocks e.hash = none) := by
          rintro ⟨h1, -⟩; exact hgt h1
        have hiff := exists_failAt_cons acc.store e rest h0
        rw [hap] at hiff
        obtain ⟨ih1, ih2, ih3⟩ :=
          ih { acc with total := acc.total - (e.num_blocks_confirmed : Int) }
        refine ⟨ih1.trans hiff.symm, ?_, ih3⟩
        intro herr
        obtain ⟨k, e1, hget, hfail, hmin, hrem, hstore, hlog, hstat⟩ := ih2 herr
        refine ⟨k + 1, e1, by simpa using hget, ?_, ?_, by simpa using hrem, ?_, hlog, hstat⟩
        · rw [failAt_succ, hap]; exact hfail
        · intro j hj
          cases j with
          | zero => rw [failAt_zero]; exact h0
          | succ j => rw [failAt_succ, hap]; exact hmin j (Nat.lt_of_succ_lt_succ hj)
        · rw [List.take_succ_cons, drainStoreK_cons, hap]
          exact hstore

/-- The batches `add_confirmation_height` hands to `write_pending` are
telescoping: per drain order, each entry's height strictly exceeds the
stored height of its account at that point, its `num_blocks_confirmed` is
exactly the difference, and its block is present.  (This is the property
the line 295 debug assert checks entry by entry.) -/
def coherent : Store → List ConfHeightDetails → Prop
  | _, [] => True
  | s, e :: rest =>
      s.accounts e.account < e.height ∧
      e.num_blocks_confirmed = e.height - s.accounts e.account ∧
      (s.blocks e.hash).isSome = true ∧
      coherent (s.putHeight e.account e.height) rest

theorem coherent_pos :
    ∀ (entries : List ConfHeightDetails) (s : Store), coherent s entries →
      ∀ e ∈ entries, 0 < e.num_blocks_confirmed := by
  intro entries
  induction entries with
  | nil => intro s _ e he; exact absurd he (List.not_mem_nil e)
  | cons e rest ih =>
      intro s hc x hx
      obtain ⟨h1, h2, -, hrest⟩ := hc
      rcases List.mem_cons.mp hx with rfl | hx2
      · rw [h2]; omega
      · exact ih _ hrest x hx2

theorem drainRef_coherent :
    ∀ (entries : List ConfHeightDetails) (acc : WpAcc), coherent acc.store entries →
      (drainRef acc entries).error = false ∧
      (drainRef acc entries).remaining = [] ∧
      (drainRef acc entries).diverged = false ∧
      (∀ a, acc.store.accounts a ≤ (drainRef acc entries).acc.store.accounts a) ∧
      (∀ a, ((entries.filter (fun w => w.account == a)).map
          (fun w => w.num_blocks_confirmed)).sum =
        (drainRef acc entries).acc.store.accounts a - acc.store.accounts a) := by
  intro entries
  induction entries with
  | nil =>
      intro acc _
      exact ⟨rfl, rfl, rfl, fun a => le_refl _, fun a => by simp [drainRef]⟩
  | cons e rest ih =>
      intro acc hc
      obtain ⟨h1, h2, h3, hrest⟩ := hc
      rcases hblk : acc.store.blocks e.hash with - | blk
      · rw [hblk] at h3; simp at h3
      · have hres : drainRef acc (e :: rest) =
            drainRef { acc with
              store := (acc.store.putHeight e.account e.height),
              statBlocksConfirmed :=
                acc.statBlocksConfirmed + (e.height - acc.store.accounts e.account),
              applied := acc.applied ++ [e],
              total := acc.total - (e.num_blocks_confirmed : Int) } rest := by
          simp [drainRef, h1, hblk]
        rw [hres]
        obtain ⟨i1, i2, i3, i4, i5⟩ := ih { acc with
          store := (acc.store.putHeight e.account e.height),
          statBlocksConfirmed :=
            acc.statBlocksConfirmed + (e.height - acc.store.accounts e.account),
          applied := acc.applied ++ [e],
          total := acc.total - (e.num_blocks_confirmed : Int) } hrest
        refine ⟨i1, i2, i3, ?_, ?_⟩
        · intro a
          exact le_trans (putHeight_le _ _ _ a (le_of_lt h1)) (i4 a)
        · intro a
          by_cases hae : e.account = a
          · subst hae
            have h5 := i5 e.account
            have h4 := i4 e.account
            rw [show ({ acc with
                store := (acc.store.putHeight e.account e.height),
                statBlocksConfirmed :=
                  acc.statBlocksConfirmed + (e.height - acc.store.accounts e.account),
                applied := acc.applied ++ [e],
                total := acc.total - (e.num_blocks_confirmed : Int) } : WpAcc).store.accounts
                e.account = e.height from Store.putHeight_accounts_self _ _ _] at h5 h4
            simp only [List.filter_cons]
            rw [if_pos (by simp : (e.account == e.account) = true)]
            simp only [List.map_cons, List.sum_cons]
            omega
          · have h5 := i5 a
            rw [show ({ acc with
                store := (acc.store.putHeight e.account e.height),
                statBlocksConfirmed :=
                  acc.statBlocksConfirmed + (e.height - acc.store.accounts e.account),
                applied := acc.applied ++ [e],
                total := acc.total - (e.num_blocks_confirmed : Int) } : WpAcc).store.accounts a
                = acc.store.accounts a from by
              rw [Store.putHeight_accounts]
              exact if_neg (fun hh => hae hh.symm)] at h5
            simp only [List.filter_cons]
            rw [if_neg (by simp [hae] : ¬(e.account == a) = true)]
            exact h5

theorem sum_nbc_fiber :
    ∀ (l : List ConfHeightDetails),
      sumNbc l = ∑ a ∈ (l.map (fun e => e.account)).toFinset,
        ((l.filter (fun w => w.account == a)).map (fun w => w.num_blocks_confirmed)).sum := by
  intro l
  induction l with
  | nil => simp [sumNbc]
  | cons e rest ih =>
      rw [sumNbc_cons, ih]
      have hsplit : ∀ a : Nat,
          (((e :: rest).filter (fun w => w.account == a)).map
              (fun w => w.num_blocks_confirmed)).sum =
            (if e.account = a then e.num_blocks_confirmed else 0) +
              ((rest.filter (fun w => w.account == a)).map
                (fun w => w.num_blocks_confirmed)).sum := by
        intro a
        simp only [List.filter_cons]
        by_cases hae : e.account = a
        · rw [if_pos (by simp [hae] : (e.account == a) = true), if_pos hae]
          simp
        · rw [if_neg (by simp [hae] : ¬(e.account == a) = true), if_neg hae]
          simp
      have hmap : ((e :: rest).map (fun x => x.account)).toFinset =
          insert e.account ((rest.map (fun x => x.account)).toFinset) := by
        simp
      rw [hmap]
      rw [Finset.sum_congr rfl (fun a _ => hsplit a)]
      rw [Finset.sum_add_distrib]
      have hone : (∑ a ∈ insert e.account ((rest.map (fun x => x.account)).toFinset),
          if e.account = a then e.num_blocks_confirmed else 0) = e.num_blocks_confirmed := by
        rw [Finset.sum_ite_eq]
        exact if_pos (Finset.mem_insert_self _ _)
      rw [hone]
      by_cases hmem : e.account ∈ (rest.map (fun x => x.account)).toFinset
      · rw [Finset.insert_eq_self.mpr hmem]
      · rw [Finset.sum_insert hmem]
        have hz : ((rest.filter (fun w => w.account == e.account)).map
            (fun w => w.num_blocks_confirmed)).sum = 0 := by
          have hfil : rest.filter (fun w => w.account == e.account) = [] := by
            rw [List.filter_eq_nil_iff]
            intro x hx
            intro hbeq
            apply hmem
            rw [List.mem_toFinset, List.mem_map]
            exact ⟨x, hx, by simpa using hbeq⟩
          rw [hfil]
          rfl
        rw [hz]
        omega

/-- Cross-account receive cycle refuting C2.  Account 1 holds blocks at
heights 5 to 10 (hashes 105 to 110), stored height 4: block 7 (hash 107) is
a receive whose source is account 2's send at hash 23, block 10 (hash 110)
a receive whose source is account 3's send at hash 32, block 9 (hash 109) a
plain block referenced as the source of account 2's receive.  Account 2
(stored 1) holds its send at hash 23 (height 3) and a receive at hash 22
(height 2) with source hash 109; account 3 (stored 1) holds its send at
hash 32 (height 2). -/
def storeC2x : Store :=
  { blocks := fun h =>
      if h = 110 then some ⟨109, 32, 0, 1, 10⟩
      else if h = 109 then some ⟨108, 0, 0, 1, 9⟩
      else if h = 108 then some ⟨107, 0, 0, 1, 8⟩
      else if h = 107 then some ⟨106, 23, 0, 1, 7⟩
      else if h = 106 then some ⟨105, 0, 0, 1, 6⟩
      else if h = 105 then some ⟨104, 0, 0, 1, 5⟩
      else if h = 23 then some ⟨22, 0, 0, 2, 3⟩
      else if h = 22 then some ⟨21, 109, 0, 2, 2⟩
      else if h = 32 then some ⟨31, 0, 0, 3, 2⟩
      else none,
    accounts := fun a => if a = 1 then 4 else if a = 2 then 1 else if a = 3 then 1 else 0 }

/-- Final state of the cross-account receive-cycle run of `process (110)`. -/
def c2xFinal : TravState :=
  (processHash storeC2x 999 110 20).getD (initState storeC2x 110)

set_option maxRecDepth 100000 in
/-- COUNTEREXAMPLE to C2: a completed, error-free `process (110)` on
`storeC2x` performs exactly one flush whose applied entries sum their
`num_blocks_confirmed` to 11, while the total increase in stored
confirmation heights is 9 (account 1 rises 4 to 10, account 2 rises 1 to
3, account 3 rises 1 to 2).  Mechanism: visiting account 1's block 9 (the
source of account 2's receive) while the height-7 receive frame of account
1 is still on the stack raises the scratch confirmed height of account 1
to 9 and queues `(account 1, height 9, nbc 5)`; the line 201
reconciliation of the height-7 receive then computes `7 - 9`, wrapping to
`2^64 - 2`, and lowers the scratch confirmed height to 7, so the final
receive at height 10 is queued with `nbc = 10 - 7 = 3` although applying
it raises the store only from 9 to 10 — heights 8 and 9 are double
counted, and the wrapped entry itself is skipped at apply time (height 7
below stored 9) while still contributing to the batch's queued sum. -/
theorem C2_counterexample :
    processHash storeC2x 999 110 20 = some c2xFinal ∧
    c2xFinal.error = false ∧
    c2xFinal.flushes = 1 ∧
    c2xFinal.pendingWrites = [] ∧
    c2xFinal.applied =
      [⟨1, 109, 9, 5⟩, ⟨2, 22, 2, 1⟩, ⟨2, 23, 3, 1⟩, ⟨3, 32, 2, 1⟩, ⟨1, 110, 10, 3⟩] ∧
    sumNbc c2xFinal.applied = 11 ∧
    c2xFinal.statBlocksConfirmed = 9 ∧
    c2xFinal.store.accounts 1 = 10 ∧
    c2xFinal.store.accounts 2 = 3 ∧
    c2xFinal.store.accounts 3 = 2 ∧
    (c2xFinal.store.accounts 1 - storeC2x.accounts 1) +
      (c2xFinal.store.accounts 2 - storeC2x.accounts 2) +
      (c2xFinal.store.accounts 3 - storeC2x.accounts 3) = 9 :=
  ⟨rfl, rfl, rfl, rfl, rfl, rfl, rfl, rfl, rfl, rfl, rfl⟩

/-- CLAIM C2, amended: the claimed accounting holds exactly for batches
whose entries telescope per account (`coherent`): each entry's
`num_blocks_confirmed` equals its height minus the stored height at the
moment it is applied, with the block present.  For such a batch, with the
passed total equal to the sum of the queued `num_blocks_confirmed` as at
the call site, `write_pending` drains every entry without error, and the
sum of `num_blocks_confirmed` over the flushed entries equals the total
increase in stored confirmation heights produced by applying the batch,
summed per account as new height minus old height.  A completed
`process (H)` can flush incoherent batches (see the counterexample), for
which the equality fails. -/
theorem C2_accounting (acc : WpAcc) (entries : List ConfHeightDetails)
    (hc : coherent acc.store entries)
    (htot : acc.total = (sumNbc entries : Int)) :
    (writePending acc entries).error = false ∧
    (writePending acc entries).remaining = [] ∧
    (∀ a, ((entries.filter (fun w => w.account == a)).map
        (fun w => w.num_blocks_confirmed)).sum =
      (writePending acc entries).acc.store.accounts a - acc.store.accounts a) ∧
    sumNbc entries =
      ∑ a ∈ (entries.map (fun e => e.account)).toFinset,
        ((writePending acc entries).acc.store.accounts a - acc.store.accounts a) := by
  have hpos : ∀ e ∈ entries, 0 < e.num_blocks_confirmed := coherent_pos entries acc.store hc
  rw [writePending_drain acc entries htot hpos]
  obtain ⟨d1, d2, -, -, d5⟩ := drainRef_coherent entries acc hc
  refine ⟨d1, d2, d5, ?_⟩
  rw [sum_nbc_fiber entries]
  exact Finset.sum_congr rfl (fun a _ => d5 a)

/-- Store for the C2 witness: blocks at hashes 10 and 20, account 1 at
stored height 0. -/
def storeW : Store :=
  ⟨fun h => if h = 10 ∨ h = 20 then some ⟨0, 0, 0, 1, 1⟩ else none, fun _ => 0⟩

/-- Telescoped two-entry batch for account 1 used by the C2 witness. -/
def entriesW : List ConfHeightDetails := [⟨1, 10, 2, 2⟩, ⟨1, 20, 5, 3⟩]

/-- Witness for C2 at a concrete input: the telescoped two-entry batch
drains without error. -/
theorem C2_accounting_witness :
    (writePending ⟨storeW, 5, [], 0, 0, []⟩ entriesW).error = false :=
  (C2_accounting ⟨storeW, 5, [], 0, 0, []⟩ entriesW
    ⟨by decide, by decide, by decide, by decide, by decide, by decide, trivial⟩
    (by decide)).1

/-- CLAIM C8: `write_pending` returns true if and only if some drained entry
has height strictly greater than its account's stored confirmation height at
that point yet the block at the entry hash is absent from the store; in that
case, at the first such entry, it appends the failure log line for that
hash, increments the `(confirmation_height, invalid_block)` stat by one,
leaves the store at the state produced by the earlier entries only (the
failed entry unapplied and still queued), and the outer traversal's step —
observing the error — exits with the DFS stack cleared; otherwise
`write_pending` drains every entry and returns false. -/
theorem C8_write_pending_error (acc : WpAcc) (entries : List ConfHeightDetails)
    (htot : acc.total = (sumNbc entries : Int))
    (hpos : ∀ e ∈ entries, 0 < e.num_blocks_confirmed) :
    ((writePending acc entries).error = true ↔ ∃ k, failAt acc.store entries k) ∧
    ((writePending acc entries).error = true →
      ∃ k e, entries[k]? = some e ∧ failAt acc.store entries k ∧
        (∀ j, j < k → ¬failAt acc.store entries j) ∧
        (writePending acc entries).remaining = entries.drop k ∧
        (writePending acc entries).acc.store = drainStoreK acc.store (entries.take k) ∧
        (writePending acc entries).acc.failedLogs = acc.failedLogs ++ [e.hash] ∧
        (writePending acc entries).acc.statInvalid = acc.statInvalid + 1) ∧
    ((writePending acc entries).error = false →
      (writePending acc entries).remaining = [] ∧
      (writePending acc entries).diverged = false) ∧
    (∀ (cfg : TravCfg) (b : Bool) (st st1 : TravState),
      st.error = false → travStep cfg b st = .halt st1 → st1.error = true →
      st1.stack = []) := by
  rw [writePending_drain acc entries htot hpos]
  obtain ⟨d1, d2, d3⟩ := drainRef_spec entries acc
  refine ⟨d1, d2, d3, ?_⟩
  intro cfg b st st1 hstf h he
  revert he
  unfold travStep at h
  dsimp only at h
  repeat' split at h
  all_goals first
    | (cases h; intro he; rfl)
    | (cases h; intro he
       exact absurd (show st.error = true from he) (by rw [hstf]; decide))
    | cases h

/-- Witness for C8 at a concrete input: a store with no blocks and a queued
entry above the stored height makes `write_pending` return the error. -/
theorem C8_write_pending_error_witness :
    (writePending ⟨⟨fun _ => none, fun _ => 0⟩, 2, [], 0, 0, []⟩
      [⟨1, 50, 2, 2⟩]).error = true :=
  (C8_write_pending_error ⟨⟨fun _ => none, fun _ => 0⟩, 2, [], 0, 0, []⟩ [⟨1, 50, 2, 2⟩]
    (by decide) (by decide)).1.mpr
    ⟨0, ⟨1, 50, 2, 2⟩, by decide, by decide, by decide⟩

theorem sumNbc_append :
    ∀ (a b : List ConfHeightDetails), sumNbc (a ++ b) = sumNbc a + sumNbc b := by
  intro a b
  induction a with
  | nil => simp [sumNbc_nil]
  | cons x t ih =>
      rw [List.cons_append, sumNbc_cons, sumNbc_cons, ih]
      omega

theorem wpInner_blocks :
    ∀ (entries : List ConfHeightDetails) (acc : WpAcc) (count x : Nat),
      (wpInner acc entries count).1.store.blocks x = acc.store.blocks x := by
  intro entries
  induction entries with
  | nil => intro acc count x; rfl
  | cons e rest ih =>
      intro acc count x
      unfold wpInner
      dsimp only
      split
      · split
        · rfl
        · split
          · rfl
          · rw [ih]; rfl
      · split
        · rfl
        · rw [ih]

theorem wpOuter_blocks :
    ∀ (fuel : Nat) (acc : WpAcc) (entries : List ConfHeightDetails) (x : Nat),
      (wpOuter fuel acc entries).acc.store.blocks x = acc.store.blocks x := by
  intro fuel
  induction fuel with
  | zero => intro acc entries x; rfl
  | succ fuel ih =>
      intro acc entries x
      unfold wpOuter
      dsimp only
      split
      · rfl
      · split
        · rfl
        · rename_i e rest
          split
          · exact wpInner_blocks (e :: rest) acc 0 x
          · rw [ih, wpInner_blocks]

theorem wpInner_queued_or_stored :
    ∀ (l1 : List ConfHeightDetails) (e : ConfHeightDetails) (l2 : List ConfHeightDetails)
      (acc : WpAcc) (count : Nat),
      (∃ l1b, (wpInner acc (l1 ++ e :: l2) count).2.1 = l1b ++ e :: l2) ∨
      e.height ≤ (wpInner acc (l1 ++ e :: l2) count).1.store.accounts e.account := by
  intro l1
  induction l1 with
  | nil =>
      intro e l2 acc count
      simp only [List.nil_append]
      unfold wpInner
      dsimp only
      split
      · split
        · exact Or.inl ⟨[], rfl⟩
        · split
          · right
            simp [Store.putHeight]
          · right
            refine le_trans ?_ (wpInner_store_mono l2 { acc with
              store := acc.store.putHeight e.account e.height,
              statBlocksConfirmed :=
                acc.statBlocksConfirmed + (e.height - acc.store.accounts e.account),
              applied := acc.applied ++ [e],
              total := acc.total - (e.num_blocks_confirmed : Int) } (count + 1) e.account)
            simp [Store.putHeight]
      · rename_i hle
        have hge : e.height ≤ acc.store.accounts e.account := Nat.le_of_not_lt hle
        split
        · right; exact hge
        · right
          exact le_trans hge (wpInner_store_mono l2
            { acc with total := acc.total - (e.num_blocks_confirmed : Int) }
            (count + 1) e.account)
  | cons x l1t ih =>
      intro e l2 acc count
      simp only [List.cons_append]
      unfold wpInner
      dsimp only
      split
      · split
        · exact Or.inl ⟨x :: l1t, by simp⟩
        · split
          · exact Or.inl ⟨l1t, rfl⟩
          · exact ih e l2 _ (count + 1)
      · split
        · exact Or.inl ⟨l1t, rfl⟩
        · exact ih e l2 _ (count + 1)

theorem wpOuter_processed :
    ∀ (fuel : Nat) (acc : WpAcc) (l1 : List ConfHeightDetails) (e : ConfHeightDetails)
      (l2 : List ConfHeightDetails),
      (l1 ++ e :: l2).length < fuel →
      acc.total = (sumNbc (l1 ++ e :: l2) : Int) →
      0 < e.num_blocks_confirmed →
      (wpOuter fuel acc (l1 ++ e :: l2)).error = false →
      e.height ≤ (wpOuter fuel acc (l1 ++ e :: l2)).acc.store.accounts e.account := by
  intro fuel
  induction fuel with
  | zero => intro acc l1 e l2 hlen _ _ _; exact absurd hlen (Nat.not_lt_zero _)
  | succ fuel ih =>
      intro acc l1 e l2 hlen htot hpos
      unfold wpOuter
      dsimp only
      split
      · rename_i hle
        exfalso
        rw [sumNbc_append, sumNbc_cons] at htot
        omega
      · split
        · rename_i hnil
          exact absurd hnil (by simp)
        · rename_i y ys hcons
          rw [← hcons]
          obtain ⟨-, -, s3⟩ := wpInner_spec (l1 ++ e :: l2) acc 0
          split
          · intro herr; simp at herr
          · rename_i herr
            have herrf : (wpInner acc (l1 ++ e :: l2) 0).2.2 = false := by
              revert herr
              rw [hcons]
              cases (wpInner acc (y :: ys) 0).2.2 <;> simp
            intro herr2
            rcases wpInner_queued_or_stored l1 e l2 acc 0 with ⟨l1b, hq⟩ | hst
            · have hlt : (wpInner acc (l1 ++ e :: l2) 0).2.1.length < fuel := by
                have h1 := wpInner_remaining_lt (l1 ++ e :: l2) acc 0 (by simp) herrf
                omega
              have htot2 : (wpInner acc (l1 ++ e :: l2) 0).1.total =
                  (sumNbc (wpInner acc (l1 ++ e :: l2) 0).2.1 : Int) := by
                rw [htot] at s3
                omega
              rw [hq] at hlt htot2 herr2 ⊢
              exact ih _ l1b e l2 hlt htot2 hpos herr2
            · exact le_trans hst (wpOuter_store_mono fuel _ _ _)

theorem writePending_processed (acc : WpAcc) (l1 : List ConfHeightDetails)
    (e : ConfHeightDetails) (l2 : List ConfHeightDetails)
    (htot : acc.total = (sumNbc (l1 ++ e :: l2) : Int))
    (hpos : 0 < e.num_blocks_confirmed)
    (herr : (writePending acc (l1 ++ e :: l2)).error = false) :
    e.height ≤ (writePending acc (l1 ++ e :: l2)).acc.store.accounts e.account :=
  wpOuter_processed ((l1 ++ e :: l2).length + 1) acc l1 e l2 (Nat.lt_succ_self _) htot hpos herr

theorem travStepCore_noop (cfg : TravCfg) (s : Store)
    (hble : s.blockAccountHeight cfg.hash_a ≤ s.accounts (s.blockAccount cfg.hash_a)) :
    travStepCore cfg (initState s cfg.hash_a) = initState s cfg.hash_a := by
  have hcond : ¬(s.blockAccountHeight cfg.hash_a >
      s.accounts (s.blockAccount cfg.hash_a)) := Nat.not_lt.mpr hble
  simp [travStepCore, pickCurrent, initState, cipLookup, effConfirmed, effIterated,
    stepEmit, emitOwn, emitRecv, hcond]

theorem travStep_noop (cfg : TravCfg) (s : Store)
    (hble : s.blockAccountHeight cfg.hash_a ≤ s.accounts (s.blockAccount cfg.hash_a)) :
    travStep cfg false (initState s cfg.hash_a) = .next (initState s cfg.hash_a) := by
  unfold travStep
  dsimp only
  rw [travStepCore_noop cfg s hble]
  simp [initState]

/-- With the watermark already established for the top hash — its height at
most its account's stored confirmation height — a `process (H)` invocation
exits after its first iteration, enqueues nothing, notifies nothing and
leaves the store untouched: its result is exactly the initial state. -/
theorem processHash_noop (s : Store) (epoch H fuel : Nat) (hf : 1 ≤ fuel)
    (hble : s.blockAccountHeight H ≤ s.accounts (s.blockAccount H)) :
    processHash s epoch H fuel = some (initState s H) := by
  cases fuel with
  | zero => exact absurd hf (by omega)
  | succ n =>
      unfold processHash addConfirmationHeight travLoop
      have hstep := travStep_noop ⟨H, ⟨H, []⟩, epoch⟩ s hble
      simp only [List.headD_nil] at *
      rw [hstep]
      simp [initState]

/-- Height `c` for account `a` is backed: either the store already records
at least `c`, or some queued write of positive `num_blocks_confirmed` for
`a` reaches at least `c`. -/
def backedW (store : Store) (writes : List ConfHeightDetails) (a c : Nat) : Prop :=
  c ≤ store.accounts a ∨
  ∃ l1 e l2, writes = l1 ++ e :: l2 ∧ e.account = a ∧ c ≤ e.height ∧
    0 < e.num_blocks_confirmed

/-- Loop invariant of `add_confirmation_height`: every confirmed height in
the scratch map is backed by the store or by the pending writes, and every
DFS frame's receive account has a scratch-map entry. -/
def TravInv (st : TravState) : Prop :=
  (∀ a p, cipLookup st.cip a = some p →
    backedW st.store st.pendingWrites a p.confirmed_height) ∧
  (∀ f ∈ st.stack, (cipLookup st.cip f.receive_details.account).isSome = true)

theorem backedW_mono_c {s : Store} {w : List ConfHeightDetails} {a c c' : Nat}
    (h : backedW s w a c) (hle : c' ≤ c) : backedW s w a c' := by
  rcases h with h | ⟨l1, e, l2, h1, h2, h3, h4⟩
  · exact Or.inl (le_trans hle h)
  · exact Or.inr ⟨l1, e, l2, h1, h2, le_trans hle h3, h4⟩

theorem backedW_append {s : Store} {w : List ConfHeightDetails} {a c : Nat}
    (h : backedW s w a c) (tail : List ConfHeightDetails) : backedW s (w ++ tail) a c := by
  rcases h with h | ⟨l1, e, l2, h1, h2, h3, h4⟩
  · exact Or.inl h
  · exact Or.inr ⟨l1, e, l2 ++ tail, by rw [h1]; simp, h2, h3, h4⟩

theorem backedW_new {s : Store} {w : List ConfHeightDetails} {a c : Nat}
    (e : ConfHeightDetails) (h2 : e.account = a) (h3 : c ≤ e.height)
    (h4 : 0 < e.num_blocks_confirmed) : backedW s (w ++ [e]) a c :=
  Or.inr ⟨w, e, [], rfl, h2, h3, h4⟩

theorem backedW_store_mono {s s' : Store} {w : List ConfHeightDetails} {a c : Nat}
    (hmono : s.accounts a ≤ s'.accounts a) (h : backedW s w a c) : backedW s' w a c := by
  rcases h with h | hw
  · exact Or.inl (le_trans h hmono)
  · exact Or.inr hw

theorem cipLookup_update_self (m : List (Nat × ConfirmedIteratedPair)) (b : Nat)
    (f : ConfirmedIteratedPair → ConfirmedIteratedPair) :
    cipLookup (cipUpdate m b f) b = (cipLookup m b).map f := by
  induction m with
  | nil => rfl
  | cons h t ih =>
      obtain ⟨k, v⟩ := h
      simp only [cipUpdate, List.map_cons] at ih ⊢
      by_cases hk : k = b
      · subst hk
        rw [if_pos rfl]
        simp [cipLookup]
      · rw [if_neg hk]
        simp only [cipLookup, if_neg hk]
        exact ih

theorem cipLookup_update_other (m : List (Nat × ConfirmedIteratedPair)) (a b : Nat)
    (f : ConfirmedIteratedPair → ConfirmedIteratedPair) (hne : a ≠ b) :
    cipLookup (cipUpdate m b f) a = cipLookup m a := by
  induction m with
  | nil => rfl
  | cons h t ih =>
      obtain ⟨k, v⟩ := h
      simp only [cipUpdate, List.map_cons] at ih ⊢
      by_cases hk : k = b
      · subst hk
        rw [if_pos rfl]
        simp only [cipLookup, if_neg (Ne.symm hne)]
        exact ih
      · rw [if_neg hk]
        by_cases hak : k = a
        · simp only [cipLookup, if_pos hak]
        · simp only [cipLookup, if_neg hak]
          exact ih

theorem cipLookup_append_some (m l : List (Nat × ConfirmedIteratedPair)) (a : Nat)
    (p : ConfirmedIteratedPair) (h : cipLookup m a = some p) :
    cipLookup (m ++ l) a = some p := by
  induction m with
  | nil => exact absurd h (by simp [cipLookup])
  | cons hd t ih =>
      obtain ⟨k, v⟩ := hd
      simp only [cipLookup, List.cons_append] at h ⊢
      by_cases hak : k = a
      · rw [if_pos hak] at h ⊢
        exact h
      · rw [if_neg hak] at h ⊢
        exact ih h

theorem cipLookup_append_none (m : List (Nat × ConfirmedIteratedPair)) (a b : Nat)
    (v : ConfirmedIteratedPair) (h : cipLookup m a = none) :
    cipLookup (m ++ [(b, v)]) a = if b = a then some v else none := by
  induction m with
  | nil => simp [cipLookup]
  | cons hd t ih =>
      obtain ⟨k, w⟩ := hd
      simp only [cipLookup, List.cons_append] at h ⊢
      by_cases hak : k = a
      · rw [if_pos hak] at h
        exact absurd h (by simp)
      · rw [if_neg hak] at h ⊢
        exact ih h

theorem cipLookup_isSome_update (m : List (Nat × ConfirmedIteratedPair)) (a b : Nat)
    (f : ConfirmedIteratedPair → ConfirmedIteratedPair)
    (h : (cipLookup m a).isSome = true) :
    (cipLookup (cipUpdate m b f) a).isSome = true := by
  by_cases hab : a = b
  · subst hab
    rw [cipLookup_update_self]
    cases hm : cipLookup m a
    · rw [hm] at h; exact absurd h (by simp)
    · simp
  · rw [cipLookup_update_other m a b f hab]
    exact h

theorem cipLookup_isSome_append (m l : List (Nat × ConfirmedIteratedPair)) (a : Nat)
    (h : (cipLookup m a).isSome = true) :
    (cipLookup (m ++ l) a).isSome = true := by
  cases hm : cipLookup m a with
  | none => rw [hm] at h; exact absurd h (by simp)
  | some p => rw [cipLookup_append_some m l a p hm]; rfl

theorem cipLookup_append_self (m : List (Nat × ConfirmedIteratedPair)) (b : Nat)
    (v : ConfirmedIteratedPair) :
    (cipLookup (m ++ [(b, v)]) b).isSome = true := by
  cases hm : cipLookup m b with
  | none => rw [cipLookup_append_none m b b v hm, if_pos rfl]; rfl
  | some p => rw [cipLookup_append_some m _ b p hm]; rfl

theorem cipLookup_nil (a : Nat) : cipLookup [] a = none := rfl

theorem mem_of_getLast?_eq {α : Type} {l : List α} {p : α} (h : l.getLast? = some p) :
    p ∈ l := by
  obtain ⟨hne, heq⟩ := List.mem_getLast?_eq_getLast (Option.mem_def.mpr h)
  rw [heq]
  exact List.getLast_mem hne

theorem setBackNbc_account (stack : List ReceiveSourcePair) (v : Nat) :
    ∀ f ∈ setBackNbc stack v, ∃ g ∈ stack, f.receive_details.account = g.receive_details.account := by
  intro f hf
  unfold setBackNbc at hf
  cases hl : stack.getLast? with
  | none => rw [hl] at hf; exact ⟨f, hf, rfl⟩
  | some p =>
      rw [hl] at hf
      rcases List.mem_append.mp hf with hd | hone
      · exact ⟨f, (List.dropLast_sublist stack).subset hd, rfl⟩
      · have : f = { p with receive_details :=
            { p.receive_details with num_blocks_confirmed := v } } := by simpa using hone
        subst this
        exact ⟨p, mem_of_getLast?_eq hl, rfl⟩

theorem collectGo_account (s : Store) (pc : PendingConf) (epoch acct dt : Nat) :
    ∀ (n hash nh : Nat) (stack : List ReceiveSourcePair) (confirms : List Nat),
      ∀ f ∈ (collectGo s pc epoch acct dt n hash nh stack confirms).stack,
        f.receive_details.account = acct ∨
        ∃ g ∈ stack, f.receive_details.account = g.receive_details.account := by
  intro n
  induction n with
  | zero => intro hash nh stack confirms f hf; exact Or.inr ⟨f, hf, rfl⟩
  | succ n ih =>
      intro hash nh stack confirms f hf
      rw [collectGo] at hf
      dsimp only at hf
      by_cases h0 : hash = 0
      · rw [if_pos h0] at hf
        exact Or.inr ⟨f, hf, rfl⟩
      · rw [if_neg h0] at hf
        cases hb : s.blocks hash with
        | none =>
            rw [hb] at hf
            exact ih hash nh stack confirms f hf
        | some b =>
            rw [hb] at hf
            dsimp only at hf
            by_cases hsrc : (if b.source = 0 then b.link else b.source) ≠ 0 ∧
                (if b.source = 0 then b.link else b.source) ≠ epoch ∧
                s.sourceExists (if b.source = 0 then b.link else b.source) = true
            · rw [if_pos hsrc] at hf
              rcases ih b.previous (dt + (n + 1)) _ _ f hf with h | ⟨g, hg, hacc⟩
              · exact Or.inl h
              · rcases List.mem_append.mp hg with hg1 | hg2
                · by_cases hnh : nh ≠ heightNotSet
                  · rw [if_pos hnh] at hg1
                    obtain ⟨g2, hg2m, hacc2⟩ := setBackNbc_account stack _ g hg1
                    exact Or.inr ⟨g2, hg2m, hacc.trans hacc2⟩
                  · rw [if_neg hnh] at hg1
                    exact Or.inr ⟨g, hg1, hacc⟩
                · left
                  rw [hacc]
                  have hg3 : g = ⟨⟨acct, hash, dt + (n + 1), heightNotSet⟩,
                      if b.source = 0 then b.link else b.source⟩ := by simpa using hg2
                  rw [hg3]
            · rw [if_neg hsrc] at hf
              exact ih b.previous nh stack _ f hf

theorem collectUnconfirmed_account (s : Store) (pc : PendingConf) (epoch : Nat)
    (bh ch hash acct : Nat) (stack : List ReceiveSourcePair) (confirms : List Nat) :
    ∀ f ∈ (collectUnconfirmed s pc epoch bh ch hash acct stack confirms).stack,
      f.receive_details.account = acct ∨
      ∃ g ∈ stack, f.receive_details.account = g.receive_details.account := by
  intro f hf
  unfold collectUnconfirmed at hf
  dsimp only at hf
  rcases hl : (collectGo s pc epoch acct ch (bh - ch) hash heightNotSet stack confirms).stack.getLast?
    with - | q
  · simp only [hl] at hf
    exact collectGo_account s pc epoch acct ch _ hash heightNotSet stack confirms f hf
  · simp only [hl] at hf
    obtain ⟨g, hg, hacc⟩ := setBackNbc_account _ _ f hf
    rcases collectGo_account s pc epoch acct ch _ hash heightNotSet stack confirms g hg with
      h | ⟨g2, hg2, hacc2⟩
    · exact Or.inl (hacc.trans h)
    · exact Or.inr ⟨g2, hg2, hacc.trans hacc2⟩

theorem setBackNbc_map (stack : List ReceiveSourcePair) (v : Nat) :
    (setBackNbc stack v).map (fun f => f.receive_details.account) =
      stack.map (fun f => f.receive_details.account) := by
  unfold setBackNbc
  cases hl : stack.getLast? with
  | none => rfl
  | some p =>
      conv_rhs => rw [← List.dropLast_append_getLast? p (Option.mem_def.mpr hl)]
      simp

theorem collectGo_map (s : Store) (pc : PendingConf) (epoch acct dt : Nat) :
    ∀ (n hash nh : Nat) (stack : List ReceiveSourcePair) (confirms : List Nat),
      ∃ k, (collectGo s pc epoch acct dt n hash nh stack confirms).stack.map
          (fun f => f.receive_details.account) =
        stack.map (fun f => f.receive_details.account) ++ List.replicate k acct := by
  intro n
  induction n with
  | zero => intro hash nh stack confirms; exact ⟨0, by simp [collectGo]⟩
  | succ n ih =>
      intro hash nh stack confirms
      rw [collectGo]
      dsimp only
      by_cases h0 : hash = 0
      · rw [if_pos h0]; exact ⟨0, by simp⟩
      · rw [if_neg h0]
        cases hb : s.blocks hash with
        | none =>
            exact ih hash nh stack confirms
        | some b =>
            dsimp only
            by_cases hsrc : (if b.source = 0 then b.link else b.source) ≠ 0 ∧
                (if b.source = 0 then b.link else b.source) ≠ epoch ∧
                s.sourceExists (if b.source = 0 then b.link else b.source) = true
            · rw [if_pos hsrc]
              obtain ⟨k, hk⟩ := ih b.previous (dt + (n + 1))
                ((if nh ≠ heightNotSet then setBackNbc stack (u64sub nh (dt + (n + 1)))
                    else stack) ++
                  [⟨⟨acct, hash, dt + (n + 1), heightNotSet⟩,
                    if b.source = 0 then b.link else b.source⟩])
                (if pc.isProcessingBlock hash = true then confirms else confirms ++ [hash])
              refine ⟨k + 1, ?_⟩
              rw [hk, List.map_append]
              have h1 : ((if nh ≠ heightNotSet then
                    setBackNbc stack (u64sub nh (dt + (n + 1))) else stack)).map
                  (fun f => f.receive_details.account) =
                  stack.map (fun f => f.receive_details.account) := by
                split
                · exact setBackNbc_map stack _
                · rfl
              rw [h1]
              simp [List.replicate_succ]
            · rw [if_neg hsrc]
              exact ih b.previous nh stack _
theorem collectUnconfirmed_map (s : Store) (pc : PendingConf) (epoch : Nat)
    (bh ch hash acct : Nat) (stack : List ReceiveSourcePair) (confirms : List Nat) :
    ∃ k, (collectUnconfirmed s pc epoch bh ch hash acct stack confirms).stack.map
        (fun f => f.receive_details.account) =
      stack.map (fun f => f.receive_details.account) ++ List.replicate k acct := by
  unfold collectUnconfirmed
  dsimp only
  rcases hl : (collectGo s pc epoch acct ch (bh - ch) hash heightNotSet stack confirms).stack.getLast?
    with - | q
  · simp only [hl]
    exact collectGo_map s pc epoch acct _ _ hash heightNotSet stack confirms
  · simp only [hl]
    obtain ⟨k, hk⟩ := collectGo_map s pc epoch acct ch _ hash heightNotSet stack confirms
    exact ⟨k, by rw [setBackNbc_map, hk]⟩

theorem backedW_flush (store : Store) (writes : List ConfHeightDetails)
    (fl : List Nat) (si sb : Nat) (ap : List ConfHeightDetails) (a c : Nat)
    (hb : backedW store writes a c)
    (herr : (writePending ⟨store, (sumNbc writes : Int), fl, si, sb, ap⟩ writes).error = false) :
    c ≤ (writePending ⟨store, (sumNbc writes : Int), fl, si, sb, ap⟩ writes).acc.store.accounts a := by
  rcases hb with h | ⟨l1, e, l2, h1, h2, h3, h4⟩
  · have hm := wpOuter_store_mono (writes.length + 1)
      ⟨store, (sumNbc writes : Int), fl, si, sb, ap⟩ writes a
    exact le_trans h hm
  · rw [h1] at herr ⊢
    have hp := writePending_processed ⟨store, (sumNbc (l1 ++ e :: l2) : Int), fl, si, sb, ap⟩
      l1 e l2 rfl h4 herr
    rw [h2] at hp
    exact le_trans h3 hp

theorem emitOwn_writes (mp : Option ConfirmedIteratedPair)
    (cip : List (Nat × ConfirmedIteratedPair)) (writes : List ConfHeightDetails)
    (account cur bh ceff iteff : Nat) :
    ∃ tail, (emitOwn mp cip writes account cur bh ceff iteff).2 = writes ++ tail := by
  unfold emitOwn
  split
  · exact ⟨[⟨account, cur, bh, bh - ceff⟩], rfl⟩
  · exact ⟨[], by simp⟩

theorem emitRecv_writes (cip : List (Nat × ConfirmedIteratedPair))
    (writes : List ConfHeightDetails) (rd : Option ConfHeightDetails) :
    ∃ tail, (emitRecv cip writes rd).2.1 = writes ++ tail := by
  unfold emitRecv
  cases rd with
  | none => exact ⟨[], by simp⟩
  | some r =>
      dsimp only
      cases hlk : cipLookup cip r.account with
      | some p =>
          exact ⟨[{ r with num_blocks_confirmed := u64sub r.height p.confirmed_height }], rfl⟩
      | none => exact ⟨[r], rfl⟩

theorem pendUpdate_facts (s : Store) (mp : Option ConfirmedIteratedPair)
    (cip : List (Nat × ConfirmedIteratedPair)) (account ceff bh iteff : Nat)
    (writes : List ConfHeightDetails)
    (hmp : mp = cipLookup cip account)
    (hceff : ceff = effConfirmed mp (s.accounts account))
    (hI1 : ∀ a p, cipLookup cip a = some p → backedW s writes a p.confirmed_height) :
    (∀ a p, cipLookup (pendUpdate mp cip account ceff bh iteff) a = some p →
      backedW s writes a p.confirmed_height) ∧
    (∀ a, (cipLookup cip a).isSome = true →
      (cipLookup (pendUpdate mp cip account ceff bh iteff) a).isSome = true) ∧
    (bh > iteff → (cipLookup (pendUpdate mp cip account ceff bh iteff) account).isSome = true) := by
  by_cases hgt : bh > iteff
  · simp only [pendUpdate, if_pos hgt]
    cases mp with
    | some q =>
        refine ⟨?_, ?_, ?_⟩
        · intro a p hp
          by_cases hab : a = account
          · subst hab
            rw [cipLookup_update_self] at hp
            cases hq : cipLookup cip a with
            | none => rw [hq] at hp; exact absurd hp (by simp)
            | some q2 =>
                rw [hq] at hp
                injection hp with hp
                rw [← hp]
                exact hI1 a q2 hq
          · rw [cipLookup_update_other cip a account _ hab] at hp
            exact hI1 a p hp
        · intro a ha
          exact cipLookup_isSome_update cip a account _ ha
        · intro _
          refine cipLookup_isSome_update cip account account _ ?_
          rw [← hmp]
          rfl
    | none =>
        refine ⟨?_, ?_, ?_⟩
        · intro a p hp
          cases hq : cipLookup cip a with
          | some q2 =>
              rw [cipLookup_append_some cip _ a q2 hq] at hp
              injection hp with hp
              rw [← hp]
              exact hI1 a q2 hq
          | none =>
              rw [cipLookup_append_none cip a account _ hq] at hp
              by_cases hab : account = a
              · rw [if_pos hab] at hp
                injection hp with hp
                rw [← hp]
                subst hab
                have hce : ceff = s.accounts account := by rw [hceff]; rfl
                exact Or.inl (le_of_eq hce)
              · rw [if_neg hab] at hp
                exact absurd hp (by simp)
        · intro a ha
          exact cipLookup_isSome_append cip _ a ha
        · intro _
          exact cipLookup_append_self cip account _
  · simp only [pendUpdate, if_neg hgt]
    exact ⟨hI1, fun a ha => ha, fun h => absurd h hgt⟩

theorem emitOwn_facts (s : Store) (mp : Option ConfirmedIteratedPair)
    (cip : List (Nat × ConfirmedIteratedPair)) (writes : List ConfHeightDetails)
    (account cur bh ceff iteff : Nat)
    (hmp : mp = cipLookup cip account)
    (hceff : ceff = effConfirmed mp (s.accounts account))
    (hI1 : ∀ a p, cipLookup cip a = some p → backedW s writes a p.confirmed_height) :
    (∀ a p, cipLookup (emitOwn mp cip writes account cur bh ceff iteff).1 a = some p →
      backedW s (emitOwn mp cip writes account cur bh ceff iteff).2 a p.confirmed_height) ∧
    (∀ a, (cipLookup cip a).isSome = true →
      (cipLookup (emitOwn mp cip writes account cur bh ceff iteff).1 a).isSome = true) ∧
    backedW s (emitOwn mp cip writes account cur bh ceff iteff).2 account bh := by
  by_cases hgt : bh > ceff
  · simp only [emitOwn, if_pos hgt]
    have hpos : 0 < bh - ceff := by omega
    cases mp with
    | some q =>
        refine ⟨?_, ?_, ?_⟩
        · intro a p hp
          by_cases hab : a = account
          · subst hab
            rw [cipLookup_update_self] at hp
            cases hq : cipLookup cip a with
            | none => rw [hq] at hp; exact absurd hp (by simp)
            | some q2 =>
                rw [hq] at hp
                injection hp with hp
                rw [← hp]
                exact backedW_new ⟨a, cur, bh, bh - ceff⟩ rfl (le_refl bh) hpos
          · rw [cipLookup_update_other cip a account _ hab] at hp
            exact backedW_append (hI1 a p hp) _
        · intro a ha
          exact cipLookup_isSome_update cip a account _ ha
        · exact backedW_new ⟨account, cur, bh, bh - ceff⟩ rfl (le_refl bh) hpos
    | none =>
        refine ⟨?_, ?_, ?_⟩
        · intro a p hp
          cases hq : cipLookup cip a with
          | some q2 =>
              rw [cipLookup_append_some cip _ a q2 hq] at hp
              injection hp with hp
              rw [← hp]
              exact backedW_append (hI1 a q2 hq) _
          | none =>
              rw [cipLookup_append_none cip a account _ hq] at hp
              by_cases hab : account = a
              · rw [if_pos hab] at hp
                injection hp with hp
                rw [← hp]
                exact backedW_new ⟨account, cur, bh, bh - ceff⟩ hab (le_refl bh) hpos
              · rw [if_neg hab] at hp
                exact absurd hp (by simp)
        · intro a ha
          exact cipLookup_isSome_append cip _ a ha
        · exact backedW_new ⟨account, cur, bh, bh - ceff⟩ rfl (le_refl bh) hpos
  · simp only [emitOwn, if_neg hgt]
    refine ⟨hI1, fun a ha => ha, ?_⟩
    have hle : bh ≤ ceff := Nat.le_of_not_lt hgt
    cases hmpc : mp with
    | none =>
        rw [hmpc] at hceff
        have hce : ceff = s.accounts account := by rw [hceff]; rfl
        exact Or.inl (by omega)
    | some q =>
        rw [hmpc] at hceff hmp
        have hb := hI1 account q hmp.symm
        by_cases hq : q.confirmed_height > s.accounts account
        · have hce : ceff = q.confirmed_height := by
            rw [hceff]; simp [effConfirmed, hq]
          exact backedW_mono_c hb (by omega)
        · have hce : ceff = s.accounts account := by
            rw [hceff]; simp [effConfirmed, hq]
          exact Or.inl (by omega)

theorem emitRecv_facts (s : Store) (cip : List (Nat × ConfirmedIteratedPair))
    (writes : List ConfHeightDetails) (rd : Option ConfHeightDetails)
    (hI1 : ∀ a p, cipLookup cip a = some p → backedW s writes a p.confirmed_height)
    (hrd : ∀ r, rd = some r → (cipLookup cip r.account).isSome = true) :
    (∀ a p, cipLookup (emitRecv cip writes rd).1 a = some p →
      backedW s (emitRecv cip writes rd).2.1 a p.confirmed_height) ∧
    (∀ a, (cipLookup cip a).isSome = true →
      (cipLookup (emitRecv cip writes rd).1 a).isSome = true) := by
  cases rd with
  | none => exact ⟨hI1, fun a ha => ha⟩
  | some r =>
      cases hlk : cipLookup cip r.account with
      | none =>
          have hs := hrd r rfl
          rw [hlk] at hs
          exact absurd hs (by simp)
      | some p0 =>
          constructor
          · intro a p hp
            simp only [emitRecv, hlk] at hp ⊢
            by_cases hab : a = r.account
            · subst hab
              rw [cipLookup_update_self, hlk] at hp
              injection hp with hp
              rw [← hp]
              by_cases hcase : r.height ≤ p0.confirmed_height
              · exact backedW_append (backedW_mono_c (hI1 r.account p0 hlk) hcase) _
              · refine backedW_new _ rfl (le_refl _) ?_
                show 0 < u64sub r.height p0.confirmed_height
                have hlt : p0.confirmed_height < r.height := Nat.lt_of_not_le hcase
                unfold u64sub
                rw [if_pos (le_of_lt hlt)]
                omega
            · rw [cipLookup_update_other cip a r.account _ hab] at hp
              exact backedW_append (hI1 a p hp) _
          · intro a ha
            simp only [emitRecv, hlk]
            exact cipLookup_isSome_update cip a r.account _ ha

theorem stepEmit_writes (mp : Option ConfirmedIteratedPair)
    (cip : List (Nat × ConfirmedIteratedPair)) (writes : List ConfHeightDetails)
    (rd : Option ConfHeightDetails) (stackA : List ReceiveSourcePair) (pending : Bool)
    (account cur bh ceff iteff : Nat) :
    ∃ tail, (stepEmit mp cip writes rd stackA pending account cur bh ceff iteff).2.1 =
      writes ++ tail := by
  unfold stepEmit
  split
  · exact ⟨[], by simp⟩
  · dsimp only
    obtain ⟨t1, h1⟩ := emitOwn_writes mp cip writes account cur bh ceff iteff
    obtain ⟨t2, h2⟩ := emitRecv_writes (emitOwn mp cip writes account cur bh ceff iteff).1
      (emitOwn mp cip writes account cur bh ceff iteff).2 rd
    exact ⟨t1 ++ t2, by rw [h2, h1, List.append_assoc]⟩

theorem stepEmit_facts (s : Store) (mp : Option ConfirmedIteratedPair)
    (cip : List (Nat × ConfirmedIteratedPair)) (writes : List ConfHeightDetails)
    (rd : Option ConfHeightDetails) (stackA : List ReceiveSourcePair) (pending : Bool)
    (account cur bh ceff iteff : Nat)
    (hmp : mp = cipLookup cip account)
    (hceff : ceff = effConfirmed mp (s.accounts account))
    (hI1 : ∀ a p, cipLookup cip a = some p → backedW s writes a p.confirmed_height)
    (hrd : ∀ r, rd = some r → (cipLookup cip r.account).isSome = true) :
    (∀ a p,
      cipLookup (stepEmit mp cip writes rd stackA pending account cur bh ceff iteff).1 a = some p →
      backedW s (stepEmit mp cip writes rd stackA pending account cur bh ceff iteff).2.1
        a p.confirmed_height) ∧
    (∀ a, (cipLookup cip a).isSome = true →
      (cipLookup (stepEmit mp cip writes rd stackA pending account cur bh ceff iteff).1 a).isSome
        = true) ∧
    (pending = true → bh > iteff →
      (cipLookup (stepEmit mp cip writes rd stackA pending account cur bh ceff iteff).1
        account).isSome = true) ∧
    (pending = false →
      backedW s (stepEmit mp cip writes rd stackA pending account cur bh ceff iteff).2.1
        account bh) := by
  cases pending with
  | true =>
      obtain ⟨p1, p2, p3⟩ := pendUpdate_facts s mp cip account ceff bh iteff writes hmp hceff hI1
      refine ⟨?_, ?_, ?_, ?_⟩
      · intro a p hp
        exact p1 a p hp
      · intro a ha
        exact p2 a ha
      · intro _ hgt
        exact p3 hgt
      · intro h
        simp at h
  | false =>
      obtain ⟨o1, o2, o3⟩ := emitOwn_facts s mp cip writes account cur bh ceff iteff hmp hceff hI1
      have hrd2 : ∀ r, rd = some r →
          (cipLookup (emitOwn mp cip writes account cur bh ceff iteff).1 r.account).isSome
            = true :=
        fun r hr => o2 r.account (hrd r hr)
      obtain ⟨r1, r2⟩ := emitRecv_facts s (emitOwn mp cip writes account cur bh ceff iteff).1
        (emitOwn mp cip writes account cur bh ceff iteff).2 rd o1 hrd2
      obtain ⟨t2, ht2⟩ := emitRecv_writes (emitOwn mp cip writes account cur bh ceff iteff).1
        (emitOwn mp cip writes account cur bh ceff iteff).2 rd
      refine ⟨?_, ?_, ?_, ?_⟩
      · intro a p hp
        exact r1 a p hp
      · intro a ha
        exact r2 a (o2 a ha)
      · intro h
        simp at h
      · intro _
        show backedW s (emitRecv (emitOwn mp cip writes account cur bh ceff iteff).1
          (emitOwn mp cip writes account cur bh ceff iteff).2 rd).2.1 account bh
        rw [ht2]
        exact backedW_append o3 t2

theorem travStepCore_facts (cfg : TravCfg) (st : TravState) (hinv : TravInv st) :
    TravInv (travStepCore cfg st) ∧
    ((travStepCore cfg st).stack = [] →
      backedW st.store (travStepCore cfg st).pendingWrites
        (st.store.blockAccount (travStepCore cfg st).current)
        (st.store.blockAccountHeight (travStepCore cfg st).current)) := by
  obtain ⟨hI1, hI2⟩ := hinv
  unfold travStepCore TravInv
  dsimp only
  set c := (pickCurrent cfg st).1 with hc
  set rd := (pickCurrent cfg st).2 with hrdd
  set bh := st.store.blockAccountHeight c with hbhd
  set acct := st.store.blockAccount c with hacctd
  set mp := cipLookup st.cip acct with hmpd
  set ceff := effConfirmed mp (st.store.accounts acct) with hceffd
  set iteff := effIterated mp (st.store.accounts acct) with hiteffd
  have hrdl : ∀ r, rd = some r → (cipLookup st.cip r.account).isSome = true := by
    intro r hr
    rw [hrdd] at hr
    unfold pickCurrent at hr
    cases hl : st.stack.getLast? with
    | none =>
        rw [hl] at hr
        cases hro : st.receiveDetails with
        | some v => rw [hro] at hr; simp at hr
        | none => rw [hro] at hr; simp at hr
    | some top =>
        rw [hl] at hr
        dsimp only at hr
        injection hr with hr
        rw [← hr]
        exact hI2 top (mem_of_getLast?_eq hl)
  by_cases hbh : bh > iteff
  · rw [if_pos hbh]
    set crs := collectUnconfirmed st.store cfg.pc cfg.epoch bh iteff c acct st.stack st.confirms
      with hcrs
    obtain ⟨k, hmap⟩ :=
      collectUnconfirmed_map st.store cfg.pc cfg.epoch bh iteff c acct st.stack st.confirms
    rw [← hcrs] at hmap
    have hlen : crs.stack.length = st.stack.length + k := by
      have hml := congrArg List.length hmap
      simpa using hml
    by_cases hpd : crs.stack.length = st.stack.length
    · have hk0 : k = 0 := by omega
      rw [hk0] at hmap
      simp only [List.replicate, List.append_nil] at hmap
      have hdec : decide (crs.stack.length ≠ st.stack.length) = false := by simp [hpd]
      rw [hdec]
      obtain ⟨f1, f2, f3, f4⟩ := stepEmit_facts st.store mp st.cip st.pendingWrites rd crs.stack
        false acct c bh ceff iteff hmpd hceffd hI1 hrdl
      refine ⟨⟨f1, ?_⟩, ?_⟩
      · intro f hf
        have hf2 : f ∈ crs.stack := (List.dropLast_sublist crs.stack).subset hf
        have hmem : f.receive_details.account ∈
            crs.stack.map (fun f => f.receive_details.account) :=
          List.mem_map_of_mem _ hf2
        rw [hmap] at hmem
        obtain ⟨g, hg, hga⟩ := List.mem_map.mp hmem
        exact f2 _ (hga ▸ hI2 g hg)
      · intro _
        exact f4 rfl
    · have hdec : decide (crs.stack.length ≠ st.stack.length) = true := decide_eq_true hpd
      rw [hdec]
      obtain ⟨f1, f2, f3, f4⟩ := stepEmit_facts st.store mp st.cip st.pendingWrites rd crs.stack
        true acct c bh ceff iteff hmpd hceffd hI1 hrdl
      refine ⟨⟨f1, ?_⟩, ?_⟩
      · intro f hf
        have hf2 : f ∈ crs.stack := hf
        have hmem : f.receive_details.account ∈
            crs.stack.map (fun f => f.receive_details.account) :=
          List.mem_map_of_mem _ hf2
        rw [hmap] at hmem
        rcases List.mem_append.mp hmem with hin | hin
        · obtain ⟨g, hg, hga⟩ := List.mem_map.mp hin
          exact f2 _ (hga ▸ hI2 g hg)
        · have hfa : f.receive_details.account = acct := List.eq_of_mem_replicate hin
          rw [hfa]
          exact f3 rfl hbh
      · intro hemp
        exfalso
        have h0 : crs.stack.length = 0 := by
          have he : crs.stack = [] := hemp
          rw [he]
          rfl
        exact hpd (by omega)
  · rw [if_neg hbh]
    dsimp only
    have hdec : decide (st.stack.length ≠ st.stack.length) = false := by simp
    rw [hdec]
    obtain ⟨f1, f2, f3, f4⟩ := stepEmit_facts st.store mp st.cip st.pendingWrites rd st.stack
      false acct c bh ceff iteff hmpd hceffd hI1 hrdl
    refine ⟨⟨f1, ?_⟩, ?_⟩
    · intro f hf
      have hf2 : f ∈ st.stack := (List.dropLast_sublist st.stack).subset hf
      exact f2 _ (hI2 f hf2)
    · intro _
      exact f4 rfl

theorem travStep_next (cfg : TravCfg) (st st1 : TravState) (hinv : TravInv st)
    (herr : st.error = false) (h : travStep cfg false st = .next st1) :
    TravInv st1 ∧ st1.error = false ∧
    (∀ x, st1.store.blocks x = st.store.blocks x) ∧
    (∀ a, st.store.accounts a ≤ st1.store.accounts a) ∧
    (st1.stack = [] →
      st.store.blockAccountHeight st1.current ≤
        st1.store.accounts (st.store.blockAccount st1.current)) := by
  obtain ⟨hcinv, hcexit⟩ := travStepCore_facts cfg st hinv
  unfold travStep at h
  dsimp only at h
  by_cases hfl : ((travStepCore cfg st).pendingWrites.length ≥ batchWriteSize ∨
      (travStepCore cfg st).stack = []) ∧ (travStepCore cfg st).pendingWrites ≠ []
  · rw [if_pos hfl] at h
    by_cases hdiv : (writePending
        ⟨(travStepCore cfg st).store, (sumNbc (travStepCore cfg st).pendingWrites : Int),
          (travStepCore cfg st).failedLogs, (travStepCore cfg st).statInvalid,
          (travStepCore cfg st).statBlocksConfirmed, (travStepCore cfg st).applied⟩
        (travStepCore cfg st).pendingWrites).diverged = true
    · rw [if_pos hdiv] at h
      simp at h
    · rw [if_neg hdiv] at h
      by_cases herr2 : (writePending
          ⟨(travStepCore cfg st).store, (sumNbc (travStepCore cfg st).pendingWrites : Int),
            (travStepCore cfg st).failedLogs, (travStepCore cfg st).statInvalid,
            (travStepCore cfg st).statBlocksConfirmed, (travStepCore cfg st).applied⟩
          (travStepCore cfg st).pendingWrites).error = true
      · rw [if_pos herr2] at h
        simp at h
      · rw [if_neg herr2] at h
        rw [if_neg Bool.false_ne_true] at h
        injection h with h
        subst h
        have herrf : (writePending
            ⟨(travStepCore cfg st).store, (sumNbc (travStepCore cfg st).pendingWrites : Int),
              (travStepCore cfg st).failedLogs, (travStepCore cfg st).statInvalid,
              (travStepCore cfg st).statBlocksConfirmed, (travStepCore cfg st).applied⟩
            (travStepCore cfg st).pendingWrites).error = false := by
          revert herr2
          cases (writePending
            ⟨(travStepCore cfg st).store, (sumNbc (travStepCore cfg st).pendingWrites : Int),
              (travStepCore cfg st).failedLogs, (travStepCore cfg st).statInvalid,
              (travStepCore cfg st).statBlocksConfirmed, (travStepCore cfg st).applied⟩
            (travStepCore cfg st).pendingWrites).error <;> simp
        refine ⟨⟨?_, ?_⟩, ?_, ?_, ?_, ?_⟩
        · intro a p hp
          exact Or.inl (backedW_flush (travStepCore cfg st).store
            (travStepCore cfg st).pendingWrites (travStepCore cfg st).failedLogs
            (travStepCore cfg st).statInvalid (travStepCore cfg st).statBlocksConfirmed
            (travStepCore cfg st).applied a p.confirmed_height (hcinv.1 a p hp) herrf)
        · intro f hf
          exact hcinv.2 f hf
        · exact herr
        · intro x
          exact wpOuter_blocks ((travStepCore cfg st).pendingWrites.length + 1)
            ⟨(travStepCore cfg st).store, (sumNbc (travStepCore cfg st).pendingWrites : Int),
              (travStepCore cfg st).failedLogs, (travStepCore cfg st).statInvalid,
              (travStepCore cfg st).statBlocksConfirmed, (travStepCore cfg st).applied⟩
            (travStepCore cfg st).pendingWrites x
        · intro a
          exact wpOuter_store_mono ((travStepCore cfg st).pendingWrites.length + 1)
            ⟨(travStepCore cfg st).store, (sumNbc (travStepCore cfg st).pendingWrites : Int),
              (travStepCore cfg st).failedLogs, (travStepCore cfg st).statInvalid,
              (travStepCore cfg st).statBlocksConfirmed, (travStepCore cfg st).applied⟩
            (travStepCore cfg st).pendingWrites a
        · intro hstk
          exact backedW_flush (travStepCore cfg st).store
            (travStepCore cfg st).pendingWrites (travStepCore cfg st).failedLogs
            (travStepCore cfg st).statInvalid (travStepCore cfg st).statBlocksConfirmed
            (travStepCore cfg st).applied _ _ (hcexit hstk) herrf
  · rw [if_neg hfl] at h
    rw [if_neg Bool.false_ne_true] at h
    injection h with h
    subst h
    refine ⟨hcinv, herr, fun x => rfl, fun a => le_refl _, ?_⟩
    intro hstk
    have hwr : (travStepCore cfg st).pendingWrites = [] := by
      by_contra hne
      exact hfl ⟨Or.inr hstk, hne⟩
    have hb := hcexit hstk
    rw [hwr] at hb
    rcases hb with hb | ⟨l1, e, l2, heq, -, -, -⟩
    · exact hb
    · exact absurd heq (by simp)

theorem travStep_halt_error (cfg : TravCfg) (st st1 : TravState)
    (h : travStep cfg false st = .halt st1) : st1.error = true := by
  unfold travStep at h
  dsimp only at h
  by_cases hfl : ((travStepCore cfg st).pendingWrites.length ≥ batchWriteSize ∨
      (travStepCore cfg st).stack = []) ∧ (travStepCore cfg st).pendingWrites ≠ []
  · rw [if_pos hfl] at h
    by_cases hdiv : (writePending
        ⟨(travStepCore cfg st).store, (sumNbc (travStepCore cfg st).pendingWrites : Int),
          (travStepCore cfg st).failedLogs, (travStepCore cfg st).statInvalid,
          (travStepCore cfg st).statBlocksConfirmed, (travStepCore cfg st).applied⟩
        (travStepCore cfg st).pendingWrites).diverged = true
    · rw [if_pos hdiv] at h
      simp at h
    · rw [if_neg hdiv] at h
      by_cases herr2 : (writePending
          ⟨(travStepCore cfg st).store, (sumNbc (travStepCore cfg st).pendingWrites : Int),
            (travStepCore cfg st).failedLogs, (travStepCore cfg st).statInvalid,
            (travStepCore cfg st).statBlocksConfirmed, (travStepCore cfg st).applied⟩
          (travStepCore cfg st).pendingWrites).error = true
      · rw [if_pos herr2] at h
        injection h with h
        rw [← h]
      · rw [if_neg herr2, if_neg Bool.false_ne_true] at h
        simp at h
  · rw [if_neg hfl, if_neg Bool.false_ne_true] at h
    simp at h

theorem travLoop_main (cfg : TravCfg) :
    ∀ (fuel : Nat) (st stF : TravState), TravInv st → st.error = false →
      travLoop cfg fuel [] st = some stF → stF.error = false →
      (∀ x, stF.store.blocks x = st.store.blocks x) ∧
      (∀ a, st.store.accounts a ≤ stF.store.accounts a) ∧
      st.store.blockAccountHeight cfg.hash_a ≤
        stF.store.accounts (st.store.blockAccount cfg.hash_a) := by
  intro fuel
  induction fuel with
  | zero =>
      intro st stF _ _ hl _
      exact absurd hl (by simp [travLoop])
  | succ n ih =>
      intro st stF hinv herr hl herrF
      rw [travLoop] at hl
      simp only [List.headD_nil, List.tail_nil] at hl
      cases hs : travStep cfg false st with
      | hang =>
          rw [hs] at hl
          simp at hl
      | halt st1 =>
          simp only [hs] at hl
          have hhe := travStep_halt_error cfg st st1 hs
          injection hl with hl
          rw [hl] at hhe
          rw [herrF] at hhe
          exact absurd hhe (by simp)
      | next st1 =>
          simp only [hs] at hl
          obtain ⟨hinv1, herr1, hblocks1, hacc1, hexit1⟩ := travStep_next cfg st st1 hinv herr hs
          by_cases hex : st1.stack = [] ∧ st1.current = cfg.hash_a
          · rw [if_pos hex] at hl
            injection hl with hl
            subst hl
            refine ⟨hblocks1, hacc1, ?_⟩
            have hw := hexit1 hex.1
            rw [hex.2] at hw
            exact hw
          · rw [if_neg hex] at hl
            obtain ⟨hbF, haF, hwF⟩ := ih st1 stF hinv1 herr1 hl herrF
            refine ⟨?_, ?_, ?_⟩
            · intro x
              rw [hbF x, hblocks1 x]
            · intro a
              exact le_trans (hacc1 a) (haF a)
            · have h1 : st1.store.blockAccountHeight cfg.hash_a =
                  st.store.blockAccountHeight cfg.hash_a := by
                unfold Store.blockAccountHeight
                rw [hblocks1 cfg.hash_a]
              have h2 : st1.store.blockAccount cfg.hash_a =
                  st.store.blockAccount cfg.hash_a := by
                unfold Store.blockAccount
                rw [hblocks1 cfg.hash_a]
              rw [h1, h2] at hwF
              exact hwF

/-- CLAIM C9: `process (H)` is idempotent with respect to the store: when an
invocation completes without a write error, running `process (H)` again on
the resulting store exits after its first loop iteration with the initial
traversal state — it enqueues no write, applies no write, notifies nothing
and leaves every stored account record unchanged. -/
theorem C9_idempotent (s : Store) (epoch H fuel fuel2 : Nat) (stF : TravState)
    (hrun : processHash s epoch H fuel = some stF) (herr : stF.error = false)
    (hf2 : 1 ≤ fuel2) :
    processHash stF.store epoch H fuel2 = some (initState stF.store H) := by
  have hinv0 : TravInv (initState s H) := by
    constructor
    · intro a p hp
      exact absurd hp (by simp [initState, cipLookup])
    · intro f hf
      exact absurd hf (by simp [initState])
  have herr0 : (initState s H).error = false := rfl
  unfold processHash addConfirmationHeight at hrun
  obtain ⟨hb, ha, hw⟩ :=
    travLoop_main ⟨H, ⟨H, []⟩, epoch⟩ fuel (initState s H) stF hinv0 herr0 hrun herr
  have h1 : stF.store.blockAccountHeight H = s.blockAccountHeight H := by
    unfold Store.blockAccountHeight
    rw [hb H]
    rfl
  have h2 : stF.store.blockAccount H = s.blockAccount H := by
    unfold Store.blockAccount
    rw [hb H]
    rfl
  have hw2 : stF.store.blockAccountHeight H ≤ stF.store.accounts (stF.store.blockAccount H) := by
    rw [h1, h2]
    exact hw
  exact processHash_noop stF.store epoch H fuel2 hf2 hw2

set_option maxRecDepth 100000 in
/-- Witness for C9 at a concrete input: the self-send `process (3)` run on
`storeSelf` completes without a write error, and a second `process (3)` on
the resulting store returns exactly the untouched initial traversal state. -/
theorem C9_idempotent_witness :
    processHash storeSelf 999 3 10 = some selfFinal ∧ selfFinal.error = false ∧
    processHash selfFinal.store 999 3 1 = some (initState selfFinal.store 3) :=
  ⟨rfl, rfl, C9_idempotent storeSelf 999 3 10 1 selfFinal rfl rfl (by decide)⟩

end ConfHeight
